import Mathlib

/-!
Shallow embedding of the symbol-resolution pipeline of the
daipendency-extractor-rust repository, together with theorems settling the
frozen claims about it.

Strings are modelled by Lean `String` (a packed list of characters); the
character-level helpers below mirror the string operations performed by the
Rust source (`str::split("::")`, `str::rfind("::")`, `str::matches("::")`,
`str::starts_with`, `str::strip_prefix` and the regex word-boundary
replacement used by `rename_symbol_in_source_code`).  Rust byte indices agree
with character indices at every position where the source slices a string
(slices always happen at a pattern match), so the character-level model is
exact.

Hash maps are modelled by insertion-ordered association lists whose `insert`
overwrites an existing key in place; hash sets by lists with membership
queries.  The one behaviour of Rust's `std::collections::HashMap` that an
association list cannot mirror is its run-dependent iteration order; the
place where that order can influence the pipeline's output (the
`into_values` read-out of the final declaration table in
`resolve_public_symbols`) is therefore modelled twice: once canonically in
table order, and once parameterised by an explicit read-out order
(`resolvePublicSymbolsRead`), which is what the determinism claim is about.
-/

namespace Daip

/-- Word characters of the regex `\b` boundary: `[A-Za-z0-9_]`. -/
def isWordChar (c : Char) : Bool :=
  c.isAlpha || c.isDigit || c = '_'

/-- Word-ness of an optional character; the absent character (string edge)
counts as a non-word position, exactly as for the regex `\b` anchor. -/
def isWordOpt : Option Char → Bool
  | none => false
  | some c => isWordChar c

/-- The regex word boundary `\b` holds between two (optional) characters
whenever exactly one of them is a word character. -/
def wordBoundary (a b : Option Char) : Bool :=
  isWordOpt a != isWordOpt b

/-- Character-level worker of `splitSS`: splits on the leftmost-first,
non-overlapping occurrences of the two-character separator `::`, exactly as
Rust's `str::split("::")`. -/
def splitSSGo : List Char → List Char → List (List Char)
  | ':' :: ':' :: rest, acc => acc.reverse :: splitSSGo rest []
  | c :: rest, acc => splitSSGo rest (c :: acc)
  | [], acc => [acc.reverse]

/-- `s.split("::")` of the Rust source as a list of strings. -/
def splitSS (s : String) : List String :=
  (splitSSGo s.data []).map String.mk

/-- `s.split("::").last().unwrap()`; the Rust iterator always yields at least
one element, so the `unwrap` never fires and a default is safe. -/
def lastSeg (s : String) : String :=
  (splitSS s).getLastD ""

/-- `s.split("::").next().unwrap_or("")`. -/
def firstSeg (s : String) : String :=
  (splitSS s).headD ""

/-- Index of the last occurrence of `::`, i.e. Rust's `str::rfind("::")`.
Defined right-to-left so that the returned index is the largest position at
which the two characters `:` `:` occur adjacently. -/
def lastSS : List Char → Option Nat
  | [] => none
  | c :: rest =>
    match lastSS rest with
    | some j => some (j + 1)
    | none => if c = ':' ∧ rest.head? = some ':' then some 0 else none

/-- Number of non-overlapping occurrences of `::` scanning from the left,
i.e. Rust's `s.matches("::").count()`. -/
def countSS : List Char → Nat
  | ':' :: ':' :: rest => countSS rest + 1
  | _ :: rest => countSS rest
  | [] => 0

/-- Rust's `str::starts_with` on string slices. -/
def strStartsWith (s pre : String) : Bool :=
  pre.data.isPrefixOf s.data

/-- Drop the first `n` characters of a string (used to model
`str::strip_prefix` after a successful `starts_with` test). -/
def strDrop (s : String) (n : Nat) : String :=
  String.mk (s.data.drop n)

/-- Character-level worker for the regex `replace_all` of the pattern
`\b` + escaped pattern + `\b` by a replacement: scans left to right,
replacing every non-overlapping occurrence of `pat` that is flanked by word
boundaries. `prev` is the character immediately before the scan position.
The `fuel` argument only makes the recursion structural: every step consumes
at least one character of `cs` (the pattern is non-empty), so with
`fuel = cs.length` the zero-fuel fallback is unreachable. -/
def replaceWBGo (pat repl : List Char) : Option Char → List Char → Nat → List Char
  | _, cs, 0 => cs
  | prev, cs, fuel + 1 =>
    match cs with
    | [] => []
    | c :: rest =>
      if pat.isPrefixOf (c :: rest) ∧
          wordBoundary prev (some c) = true ∧
          wordBoundary pat.getLast? (((c :: rest).drop pat.length).head?) = true then
        repl ++ replaceWBGo pat repl pat.getLast? ((c :: rest).drop pat.length) fuel
      else
        c :: replaceWBGo pat repl (some c) rest fuel

/-- Replace every word-boundary-delimited occurrence of `pat` inside `src`
by `repl`: the effect of the Rust regex replacement
`\b` + escape(pat) + `\b` → repl applied with `replace_all`, for a literal
(escaped) pattern. An empty pattern cannot arise (symbol names are
non-empty); it is returned unchanged for totality. -/
def replaceWordBounded (src pat repl : String) : String :=
  if pat.data = [] then src
  else String.mk (replaceWBGo pat.data repl.data none src.data src.data.length)

/-!
## Data model

Mirrors `daipendency_extractor::Symbol`, `api::parsing::ImportType`,
`api::module_directory::{ModuleItem, Module}` and
`api::symbol_resolution::{SymbolDeclaration, SymbolResolution,
SymbolReference}`, plus the error enum `ExtractionError`.
-/

structure Symbol where
  name : String
  source_code : String
deriving DecidableEq

inductive ImportType where
  | Simple
  | Wildcard
  | Aliased (aliasName : String)
deriving DecidableEq

inductive ModuleItem where
  | symbol (symbol : Symbol)
  | symbolReexport (source_path : String) (import_type : ImportType)
deriving DecidableEq

structure Module where
  name : String
  is_public : Bool
  doc_comment : Option String
  symbols : List ModuleItem
deriving DecidableEq

structure SymbolDeclaration where
  symbol : Symbol
  modules : List String
deriving DecidableEq

structure SymbolResolution where
  symbols : List SymbolDeclaration
  doc_comments : List (String × String)
deriving DecidableEq

structure SymbolReference where
  source_path : String
  referencing_module : String
  import_type : ImportType
deriving DecidableEq

inductive ExtractionError where
  | io
  | parseFailure (message : String)
  | malformed (message : String)
deriving DecidableEq

/-!
## Hash-map model

`HashMap<String, A>` is modelled by an insertion-ordered association list
with unique keys: `tableInsert` overwrites in place when the key is present
and appends otherwise, `tableRemove` deletes the (unique) entry of a key.
-/

def listLookup {κ α : Type} [DecidableEq κ] : List (κ × α) → κ → Option α
  | [], _ => none
  | (k, v) :: rest, key => if k = key then some v else listLookup rest key

def tableInsert {α : Type} : List (String × α) → String → α → List (String × α)
  | [], key, v => [(key, v)]
  | (k, w) :: rest, key, v =>
      if k = key then (k, v) :: rest else (k, w) :: tableInsert rest key v

def tableRemove {α : Type} : List (String × α) → String → List (String × α)
  | [], _ => []
  | (k, w) :: rest, key => if k = key then rest else (k, w) :: tableRemove rest key

/-- Model of draining a `HashSet` that was built from a list back into a
list: one copy of every element. Rust's read-out order is hash-dependent;
the model keeps the first occurrence in list order (every claim that touches
this value is about the set of modules, never about their order). -/
def dedupGo (seen : List String) : List String → List String
  | [] => []
  | x :: rest => if x ∈ seen then dedupGo seen rest else x :: dedupGo (x :: seen) rest

def dedupKeepFirst (l : List String) : List String := dedupGo [] l

/-!
## Symbol resolution (`api::symbol_resolution`)
-/

/-- `get_symbol_path_from_module_path` of the source. -/
def getSymbolPathFromModulePath (symbolName moduleName : String) : String :=
  if moduleName = "" then symbolName else moduleName ++ "::" ++ symbolName

/-- `normalise_reference`: strips a leading `crate::`, resolves a leading
`super::` against the parent of the current module (failing from the root),
resolves a leading `self::` against the current module, and otherwise leaves
the path unchanged. -/
def normaliseReference (reference currentModule : String) :
    Except ExtractionError String :=
  if strStartsWith reference "crate::" then
    .ok (strDrop reference 7)
  else if strStartsWith reference "super::" then
    if currentModule = "" then
      .error (.malformed ("Cannot use super from the root module (" ++ reference ++ ")"))
    else
      match lastSS currentModule.data with
      | some parent =>
          .ok (String.mk (currentModule.data.take parent) ++ "::" ++ strDrop reference 7)
      | none => .ok (strDrop reference 7)
  else if strStartsWith reference "self::" then
    .ok (getSymbolPathFromModulePath (strDrop reference 6) currentModule)
  else
    .ok reference

/-- Qualified names of the modules whose `is_public` flag is set (the
public-set computed in `resolve_public_symbols`). -/
def publicModulePaths (allModules : List Module) : List String :=
  (allModules.filter (fun m => m.is_public)).map (fun m => m.name)

/-- Inner loop of `collect_symbols_and_references` over the items of one
module: symbol definitions seed the declaration table under their fully
qualified path, re-exports are normalised and recorded as references. -/
def collectFromItems (moduleName : String) :
    List ModuleItem → List (String × SymbolDeclaration) × List SymbolReference →
    Except ExtractionError (List (String × SymbolDeclaration) × List SymbolReference)
  | [], acc => .ok acc
  | .symbol s :: rest, acc =>
      collectFromItems moduleName rest
        (tableInsert acc.1 (getSymbolPathFromModulePath s.name moduleName)
          { symbol := s, modules := [moduleName] }, acc.2)
  | .symbolReexport sp it :: rest, acc =>
      match normaliseReference sp moduleName with
      | .error e => .error e
      | .ok np =>
          collectFromItems moduleName rest
            (acc.1,
             acc.2 ++ [{ source_path := np, referencing_module := moduleName,
                         import_type := it }])

def collectGo :
    List Module → List (String × SymbolDeclaration) × List SymbolReference →
    Except ExtractionError (List (String × SymbolDeclaration) × List SymbolReference)
  | [], acc => .ok acc
  | m :: rest, acc =>
      match collectFromItems m.name m.symbols acc with
      | .error e => .error e
      | .ok acc2 => collectGo rest acc2

/-- `collect_symbols_and_references`. -/
def collectSymbolsAndReferences (allModules : List Module) :
    Except ExtractionError (List (String × SymbolDeclaration) × List SymbolReference) :=
  collectGo allModules ([], [])

/-- `recreate_reexport`: the synthetic declaration emitted for a reference
that resolved to nothing. -/
def recreateReexport (targetRef : SymbolReference) : SymbolDeclaration :=
  match targetRef.import_type with
  | .Simple =>
      { symbol := { name := lastSeg targetRef.source_path,
                    source_code := "pub use " ++ targetRef.source_path ++ ";" },
        modules := [targetRef.referencing_module] }
  | .Aliased a =>
      { symbol := { name := a,
                    source_code :=
                      "pub use " ++ targetRef.source_path ++ " as " ++ a ++ ";" },
        modules := [targetRef.referencing_module] }
  | .Wildcard =>
      { symbol := { name := lastSeg targetRef.source_path,
                    source_code := "pub use " ++ targetRef.source_path ++ "::*;" },
        modules := [targetRef.referencing_module] }

/-- `rename_symbol_in_source_code`: word-boundary replacement of the
declaration's current name by the alias inside its rendered source. -/
def renameSymbolInSourceCode (declaration : SymbolDeclaration) (aliasName : String) : String :=
  replaceWordBounded declaration.symbol.source_code declaration.symbol.name aliasName

/-- Body of `get_module_declarations`, parameterised over the function used
to resolve nested re-export references. The mutual recursion with
`resolve_symbol_reference` is tied through this parameter; the fuel of the
structural recursion below decreases on every nesting level. In the source,
`visited` is cloned for every nested reference, so sibling re-exports see
the same set: the parameter closure captures that set once. -/
def getModuleDeclarationsWith
    (resolveF : SymbolReference → Except ExtractionError (List SymbolDeclaration))
    (targetModuleName : String) :
    List ModuleItem → Except ExtractionError (List SymbolDeclaration)
  | [] => .ok []
  | .symbol s :: rest =>
      match getModuleDeclarationsWith resolveF targetModuleName rest with
      | .error e => .error e
      | .ok others => .ok ({ symbol := s, modules := [targetModuleName] } :: others)
  | .symbolReexport sp it :: rest =>
      match normaliseReference sp targetModuleName with
      | .error e => .error e
      | .ok np =>
          match resolveF { source_path := np, referencing_module := targetModuleName,
                           import_type := it } with
          | .error e => .error e
          | .ok resolved =>
              match getModuleDeclarationsWith resolveF targetModuleName rest with
              | .error e => .error e
              | .ok others => .ok (resolved ++ others)

/-- The loop of `resolve_symbol_reference` over `all_references` that chases
a path through another re-exporter, parameterised like
`getModuleDeclarationsWith`. In the source every candidate gets a clone of
the current visited set; the closure captures that set once. -/
def chainSearchWith
    (resolveF : SymbolReference → Except ExtractionError (List SymbolDeclaration))
    (targetRef : SymbolReference) :
    List SymbolReference → Except ExtractionError (List SymbolDeclaration)
  | [] => .ok []
  | r :: rest =>
      let isMatch : Bool :=
        match targetRef.import_type with
        | .Wildcard => strStartsWith r.source_path targetRef.source_path
        | _ => decide (r.referencing_module = firstSeg targetRef.source_path)
      if isMatch then
        match resolveF r with
        | .error e => .error e
        | .ok resolved =>
            let adjusted := resolved.map (fun d =>
              let d2 := { d with modules := d.modules ++ [targetRef.referencing_module] }
              match targetRef.import_type with
              | .Aliased a =>
                  { d2 with symbol := { name := a, source_code := d2.symbol.source_code } }
              | _ => d2)
            match chainSearchWith resolveF targetRef rest with
            | .error e => .error e
            | .ok more => .ok (adjusted ++ more)
      else
        chainSearchWith resolveF targetRef rest

/-- Clone-and-adjust step for a declaration found directly in the
declaration table: every import type except `Aliased` appends the
referencing module to the clone's modules list. -/
def resolveFoundDeclaration (targetRef : SymbolReference)
    (declaration : SymbolDeclaration) : SymbolDeclaration :=
  match targetRef.import_type with
  | .Aliased _ => declaration
  | _ => { declaration with
             modules := declaration.modules ++ [targetRef.referencing_module] }

/-- `resolve_symbol_reference`. The `target_module_path` of the wildcard
branch and the `full_path` of the direct lookup are the same expression in
the source; the model computes it once. The `fuel` argument makes the recursion
structural; it strictly dominates the depth of the visited-set-guarded
recursion of the source (every nesting level inserts a fresh path into the
visited set, and only finitely many paths exist), so for the fuel chosen in
`resolutionFuel` the zero-fuel branch is unreachable. -/
def resolveSymbolReference (allModules : List Module) (allRefs : List SymbolReference) :
    Nat → SymbolReference → List (String × SymbolDeclaration) → List String →
    Except ExtractionError (List SymbolDeclaration)
  | 0, _, _, _ => .error (.malformed "resolution depth limit exceeded")
  | fuel + 1, targetRef, allDeclarations, visited =>
    if targetRef.source_path ∈ visited then .ok []
    else
      let visited2 := targetRef.source_path :: visited
      let targetModulePath :=
        getSymbolPathFromModulePath targetRef.source_path targetRef.referencing_module
      match targetRef.import_type,
            allModules.find? (fun m => decide (m.name = targetModulePath)) with
      | .Wildcard, some targetModule =>
          (match getModuleDeclarationsWith
                   (fun r => resolveSymbolReference allModules allRefs fuel r
                               allDeclarations visited2)
                   targetModule.name targetModule.symbols with
           | .error e => .error e
           | .ok ds =>
               .ok (ds.map (fun d =>
                 { d with modules := d.modules ++ [targetRef.referencing_module] })))
      | _, _ =>
          match listLookup allDeclarations targetModulePath with
          | some declaration =>
              .ok [resolveFoundDeclaration targetRef declaration]
          | none =>
              match listLookup allDeclarations targetRef.source_path with
              | some declaration =>
                  .ok [resolveFoundDeclaration targetRef declaration]
              | none =>
                  chainSearchWith
                    (fun r => resolveSymbolReference allModules allRefs fuel r
                                allDeclarations visited2)
                    targetRef allRefs

/-- The declaration-table key a Simple contribution is inserted at:
`host::last_segment(src)`, or `src` itself when the host is the root. -/
def simpleInsertKey (reference : SymbolReference) : String :=
  if reference.referencing_module = "" then reference.source_path
  else reference.referencing_module ++ "::" ++ lastSeg reference.source_path

/-- One insertion step of the per-declaration loop in `resolve_references`:
writes a contribution obtained for `reference` back into the declaration
table, with the key and merge rules of the three import types. -/
def applyContribution (publicPaths : List String) (reference : SymbolReference)
    (allDeclarations : List (String × SymbolDeclaration))
    (declaration : SymbolDeclaration) : List (String × SymbolDeclaration) :=
  match reference.import_type with
  | .Aliased a =>
      let aliasKey := getSymbolPathFromModulePath a reference.referencing_module
      let chainModules := declaration.modules ++ [reference.referencing_module]
      let allPublicInChain := chainModules.all (fun m => decide (m ∈ publicPaths))
      let aliasedSymbol : SymbolDeclaration :=
        { symbol := { name := a,
                      source_code :=
                        if allPublicInChain then
                          "pub use " ++ reference.source_path ++ " as " ++ a ++ ";"
                        else
                          renameSymbolInSourceCode declaration a },
          modules := [reference.referencing_module] }
      tableInsert allDeclarations aliasKey aliasedSymbol
  | .Wildcard =>
      tableInsert allDeclarations
        (getSymbolPathFromModulePath declaration.symbol.name
          reference.referencing_module)
        declaration
  | .Simple =>
      let key := simpleInsertKey reference
      match listLookup allDeclarations key with
      | some existing =>
          tableInsert allDeclarations key
            { existing with
                modules := dedupKeepFirst (existing.modules ++ declaration.modules) }
      | none =>
          let t :=
            if (listLookup allDeclarations reference.source_path).isSome then
              tableRemove allDeclarations reference.source_path
            else allDeclarations
          tableInsert t key declaration

/-- Main loop of `resolve_references`: resolves each reference against the
current table (with a fresh visited set), substitutes the synthetic
re-created declaration when nothing was found, and applies every
contribution to the table. -/
def resolveReferencesGo (allModules : List Module) (allRefs : List SymbolReference)
    (publicPaths : List String) (fuel : Nat) :
    List SymbolReference → List (String × SymbolDeclaration) →
    Except ExtractionError (List (String × SymbolDeclaration))
  | [], table => .ok table
  | reference :: rest, table =>
      match resolveSymbolReference allModules allRefs fuel reference table [] with
      | .error e => .error e
      | .ok found =>
          let declarations := if found.isEmpty then [recreateReexport reference] else found
          resolveReferencesGo allModules allRefs publicPaths fuel rest
            (declarations.foldl (applyContribution publicPaths reference) table)

/-- `resolve_references`. -/
def resolveReferences (fuel : Nat) (allDeclarations : List (String × SymbolDeclaration))
    (allReferences : List SymbolReference) (allModules : List Module)
    (publicPaths : List String) :
    Except ExtractionError (List (String × SymbolDeclaration)) :=
  resolveReferencesGo allModules allReferences publicPaths fuel allReferences
    allDeclarations

/-- Fuel bound handed to `resolveSymbolReference`: one more than the total
number of module items dominates the number of distinct source paths, hence
the depth of the visited-set-guarded recursion. -/
def resolutionFuel (allModules : List Module) : Nat :=
  allModules.foldl (fun acc m => acc + m.symbols.length) 0 + 2

/-- The body of the post-resolution for-loop over
`resolved_symbols.values_mut()`: restrict one entry's modules list to the
public set. -/
def restrictModules (publicPaths : List String) (kv : String × SymbolDeclaration) :
    String × SymbolDeclaration :=
  (kv.1,
   { kv.2 with modules := kv.2.modules.filter (fun m => decide (m ∈ publicPaths)) })

/-- The shared head of `resolve_public_symbols`: seed the table, resolve all
references, then restrict every entry's modules list to the public set (the
for-loop over `resolved_symbols.values_mut()`). -/
def resolutionTable (allModules : List Module) :
    Except ExtractionError (List (String × SymbolDeclaration)) :=
  match collectSymbolsAndReferences allModules with
  | .error e => .error e
  | .ok (resolvedSymbols, references) =>
      let publicPaths := publicModulePaths allModules
      match resolveReferences (resolutionFuel allModules) resolvedSymbols references
              allModules publicPaths with
      | .error e => .error e
      | .ok table =>
          .ok (table.map (restrictModules publicPaths))

/-- The final filter of `resolve_public_symbols`: keep a symbol when its
modules list still intersects the public set. -/
def keepPublic (publicPaths : List String) (s : SymbolDeclaration) : Bool :=
  s.modules.any (fun m => decide (m ∈ publicPaths))

/-- `resolve_public_symbols`, reading the final table's values in table
order (the canonical read-out). -/
def resolvePublicSymbols (allModules : List Module) :
    Except ExtractionError (List SymbolDeclaration) :=
  match resolutionTable allModules with
  | .error e => .error e
  | .ok table =>
      .ok ((table.map Prod.snd).filter (keepPublic (publicModulePaths allModules)))

/-- `resolve_public_symbols` with the `into_values()` read-out order of the
final hash map made explicit: a run of the Rust program reads the table's
values in some hash-seed-dependent enumeration of its keys. -/
def resolvePublicSymbolsRead (allModules : List Module) (readOrder : List String) :
    Except ExtractionError (List SymbolDeclaration) :=
  match resolutionTable allModules with
  | .error e => .error e
  | .ok table =>
      .ok ((readOrder.filterMap (listLookup table)).filter
            (keepPublic (publicModulePaths allModules)))

/-- `get_doc_comments_by_module`. -/
def getDocCommentsByModule (allModules : List Module) : List (String × String) :=
  allModules.filterMap (fun m => m.doc_comment.map (fun d => (m.name, d)))

/-- `resolve_symbols`. -/
def resolveSymbols (allModules : List Module) :
    Except ExtractionError SymbolResolution :=
  match resolvePublicSymbols allModules with
  | .error e => .error e
  | .ok symbols =>
      .ok { symbols := symbols, doc_comments := getDocCommentsByModule allModules }

/-!
## Namespace construction (`api::namespace_construction`)
-/

structure Namespace where
  name : String
  symbols : List Symbol
  doc_comment : Option String
deriving DecidableEq

/-- The crate-name pre-processing `crate_name.replace("-", "_")` (the
pattern is a single character, so a character map is exact). -/
def sanitiseCrateName (crateName : String) : String :=
  String.mk (crateName.data.map (fun c => if c = '-' then '_' else c))

/-- Key of the namespace a module path is filed under. -/
def namespaceName (crateName modulePath : String) : String :=
  if modulePath = "" then crateName else crateName ++ "::" ++ modulePath

/-- One iteration of the grouping loop of `construct_namespaces`: find or
create the namespace of `modulePath` and push the symbol. -/
def pushSymbolToNamespace (docs : List (String × String)) (crateName : String)
    (t : List (String × Namespace)) (modulePath : String) (symbol : Symbol) :
    List (String × Namespace) :=
  let key := namespaceName crateName modulePath
  match listLookup t key with
  | some ns => tableInsert t key { ns with symbols := ns.symbols ++ [symbol] }
  | none =>
      t ++ [(key, { name := key, symbols := [symbol],
                    doc_comment := listLookup docs modulePath })]

/-- The grouping phase of `construct_namespaces` as a fold over the resolved
symbols and, inside each, over its module paths. -/
def buildNamespaceTable (docs : List (String × String)) (crateName : String)
    (symbols : List SymbolDeclaration) : List (String × Namespace) :=
  symbols.foldl
    (fun t rs => rs.modules.foldl (fun t2 m => pushSymbolToNamespace docs crateName t2 m rs.symbol) t)
    []

/-- The sort comparator of `construct_namespaces` as a boolean total
preorder: number of `::` separators ascending, then name ascending. -/
def namespaceLE (a b : Namespace) : Bool :=
  let ca := countSS a.name.data
  let cb := countSS b.name.data
  if ca = cb then decide (a.name ≤ b.name) else decide (ca < cb)

/-- `construct_namespaces`. Rust reads `namespace_by_path.into_values()` in
a hash-dependent order and then applies a stable sort; since the comparator
is a total order that is antisymmetric on the distinct namespace names, the
sorted result is the same for every read-out order, so the model reads the
values in insertion order. -/
def constructNamespaces (symbolResolution : SymbolResolution) (crateName : String) :
    List Namespace :=
  let crate := sanitiseCrateName crateName
  let table := buildNamespaceTable symbolResolution.doc_comments crate
    symbolResolution.symbols
  (table.map Prod.snd).mergeSort namespaceLE

/-- The resolution-plus-assembly tail of `build_public_api` on an
already-flattened module list (canonical read-out). -/
def buildApiFromModules (allModules : List Module) (crateName : String) :
    Except ExtractionError (List Namespace) :=
  match resolveSymbols allModules with
  | .error e => .error e
  | .ok res => .ok (constructNamespaces res crateName)

/-- The same tail with the read-out order of the final declaration table
made explicit (see `resolvePublicSymbolsRead`): two runs of the program on
identical inputs differ at most in this order. -/
def buildApiFromModulesRead (allModules : List Module) (crateName : String)
    (readOrder : List String) : Except ExtractionError (List Namespace) :=
  match resolvePublicSymbolsRead allModules readOrder with
  | .error e => .error e
  | .ok symbols =>
      .ok (constructNamespaces
        { symbols := symbols, doc_comments := getDocCommentsByModule allModules }
        crateName)

/-!
## Parsed-file model and module flattening
(`api::parsing::files`, `api::module_directory`)
-/

inductive RustSymbol where
  | symbol (symbol : Symbol)
  | reexport (source_path : String) (import_type : ImportType)
  | moduleBlock (name : String) (is_public : Bool) (content : List RustSymbol)
      (doc_comment : Option String)
  | moduleImport (name : String) (is_reexported : Bool)

structure RustFile where
  doc_comment : Option String
  symbols : List RustSymbol

/-- The recursion of `extract_modules_from_symbols` below the top level:
every nested call in the source passes an empty `internal_files` map, under
which a `ModuleImport` item never finds its file and is skipped, so that
argument is dropped here. Returns the owning module's direct items and the
flattened nested modules, in source order. -/
def extractItemsInner (rootModuleName : String) :
    List RustSymbol → List ModuleItem × List Module
  | [] => ([], [])
  | .moduleBlock name isPub content doc :: rest =>
      let nestedName := getSymbolPathFromModulePath name rootModuleName
      let nested := extractItemsInner nestedName content
      let restR := extractItemsInner rootModuleName rest
      (restR.1, (⟨nestedName, isPub, doc, nested.1⟩ :: nested.2) ++ restR.2)
  | .moduleImport _ _ :: rest => extractItemsInner rootModuleName rest
  | .symbol s :: rest =>
      let restR := extractItemsInner rootModuleName rest
      (.symbol s :: restR.1, restR.2)
  | .reexport sp it :: rest =>
      let restR := extractItemsInner rootModuleName rest
      (.symbolReexport sp it :: restR.1, restR.2)

/-- Top level of the item loop of `extract_modules_from_symbols`: identical
to `extractItemsInner` except that a `ModuleImport` whose name is present in
the internal-files map is flattened like a module block built from that
file (and silently skipped otherwise). -/
def extractItemsTop (rootModuleName : String)
    (internalFiles : List (String × RustFile)) :
    List RustSymbol → List ModuleItem × List Module
  | [] => ([], [])
  | .moduleBlock name isPub content doc :: rest =>
      let nestedName := getSymbolPathFromModulePath name rootModuleName
      let nested := extractItemsInner nestedName content
      let restR := extractItemsTop rootModuleName internalFiles rest
      (restR.1, (⟨nestedName, isPub, doc, nested.1⟩ :: nested.2) ++ restR.2)
  | .moduleImport name isReexported :: rest =>
      (match listLookup internalFiles name with
       | some file =>
           let nestedName := getSymbolPathFromModulePath name rootModuleName
           let nested := extractItemsInner nestedName file.symbols
           let restR := extractItemsTop rootModuleName internalFiles rest
           (restR.1,
            (⟨nestedName, isReexported, file.doc_comment, nested.1⟩ :: nested.2)
              ++ restR.2)
       | none => extractItemsTop rootModuleName internalFiles rest)
  | .symbol s :: rest =>
      let restR := extractItemsTop rootModuleName internalFiles rest
      (.symbol s :: restR.1, restR.2)
  | .reexport sp it :: rest =>
      let restR := extractItemsTop rootModuleName internalFiles rest
      (.symbolReexport sp it :: restR.1, restR.2)

/-- `extract_modules_from_symbols`. The Rust function returns a `Result`
whose error case is never constructed (the only fallible operation is its
own recursion); the `Except` wrapper mirrors the signature. -/
def extractModulesFromSymbols (rootModuleName : String)
    (rootModuleIsPublic : Bool) (rootModuleDocComment : Option String)
    (symbols : List RustSymbol) (internalFiles : List (String × RustFile)) :
    Except ExtractionError (List Module) :=
  let step := extractItemsTop rootModuleName internalFiles symbols
  .ok (⟨rootModuleName, rootModuleIsPublic, rootModuleDocComment, step.1⟩ :: step.2)

structure ModuleDirectory where
  name : String
  is_public : Bool
  entry_point : RustFile
  internal_files : List (String × RustFile)

/-- `ModuleDirectory::extract_modules`. -/
def ModuleDirectory.extractModules (d : ModuleDirectory) :
    Except ExtractionError (List Module) :=
  extractModulesFromSymbols d.name d.is_public d.entry_point.doc_comment
    d.entry_point.symbols d.internal_files

/-- `module_extraction::extract_modules`. -/
def extractModules : List ModuleDirectory → Except ExtractionError (List Module)
  | [] => .ok []
  | d :: rest =>
      match d.extractModules with
      | .error e => .error e
      | .ok mods =>
          match extractModules rest with
          | .error e => .error e
          | .ok more => .ok (mods ++ more)

/-!
## Module-directory collection (`api::symbol_collection`)

The file system is abstract: a finite map from paths (component lists) to
already-parsed files (`parse_rust_file` and the parser are outside this
traversal; an absent path stands for an unreadable file, which is the `Io`
error of `read_to_string`). A directory exists when some file lies strictly
below it, which matches the source trees the collector is run on.
-/

abbrev FsPath := List String

structure Fs where
  files : List (FsPath × RustFile)

def fsRead (fs : Fs) (p : FsPath) : Option RustFile :=
  listLookup fs.files p

def fsExists (fs : Fs) (p : FsPath) : Bool :=
  (fsRead fs p).isSome

def fsIsDir (fs : Fs) (p : FsPath) : Bool :=
  fs.files.any (fun e => decide (p ≠ e.1) && p.isPrefixOf e.1)

inductive LocalModuleType where
  | file
  | directory (dir : FsPath)
deriving DecidableEq

structure LocalModuleImport where
  path : FsPath
  module_type : LocalModuleType

/-- `categorise_module_import`: two-phase lookup of a module declaration
against the current directory. -/
def categoriseModuleImport (fs : Fs) (currentFile directoryPath : FsPath)
    (moduleName : String) : Except ExtractionError LocalModuleImport :=
  let rsPath := directoryPath ++ [moduleName ++ ".rs"]
  if fsExists fs rsPath then
    let moduleDir := directoryPath ++ [moduleName]
    if fsIsDir fs moduleDir then
      .ok { path := rsPath, module_type := .directory moduleDir }
    else
      .ok { path := rsPath, module_type := .file }
  else
    let modRsPath := directoryPath ++ [moduleName, "mod.rs"]
    if fsExists fs modRsPath then
      .ok { path := modRsPath,
            module_type := .directory (directoryPath ++ [moduleName]) }
    else
      .error (.malformed ("Could not find module " ++ moduleName ++ " from "
        ++ String.intercalate "/" currentFile))

/-- `prefix_namespace` of the source. -/
def namespacedName (name ns : String) : String :=
  if ns = "" then name else ns ++ "::" ++ name

/-- The loop of `recursively_collect_module_directories` over the entry
file's items, parameterised over the function used to recurse into a nested
directory scope, with accumulators for the internal-files map and the
imported directories. `none` means the recursion fuel ran out (unreachable
for the fuel chosen in `collectModuleDirectories`; see
`collectModuleDirectories_isSome`). -/
def collectItemsWith
    (recurseF : FsPath → FsPath → Bool → String →
      Option (Except ExtractionError (List ModuleDirectory)))
    (fs : Fs) (entryPointPath directoryPath : FsPath) (nsPrefix : String) :
    List RustSymbol → List (String × RustFile) → List ModuleDirectory →
    Option (Except ExtractionError (List (String × RustFile) × List ModuleDirectory))
  | [], internal, dirs => some (.ok (internal, dirs))
  | .moduleImport name isReexported :: rest, internal, dirs =>
      (match categoriseModuleImport fs entryPointPath directoryPath name with
       | .error e => some (.error e)
       | .ok imp =>
           match imp.module_type with
           | .file =>
               (match fsRead fs imp.path with
                | none => some (.error .io)
                | some file =>
                    collectItemsWith recurseF fs entryPointPath directoryPath
                      nsPrefix rest (tableInsert internal name file) dirs)
           | .directory moduleDir =>
               (match recurseF imp.path moduleDir isReexported
                        (namespacedName name nsPrefix) with
                | none => none
                | some (.error e) => some (.error e)
                | some (.ok newDirs) =>
                    collectItemsWith recurseF fs entryPointPath directoryPath
                      nsPrefix rest internal (dirs ++ newDirs)))
  | _ :: rest, internal, dirs =>
      collectItemsWith recurseF fs entryPointPath directoryPath nsPrefix rest
        internal dirs

/-- One level of `recursively_collect_module_directories` with the nested
recursion abstracted. -/
def collectLevel (fs : Fs)
    (recurseF : FsPath → FsPath → Bool → String →
      Option (Except ExtractionError (List ModuleDirectory)))
    (entryPointPath directoryPath : FsPath) (isRootDirectoryPublic : Bool)
    (nsPrefix : String) : Option (Except ExtractionError (List ModuleDirectory)) :=
  match fsRead fs entryPointPath with
  | none => some (.error .io)
  | some entryPointFile =>
      match collectItemsWith recurseF fs entryPointPath directoryPath nsPrefix
              entryPointFile.symbols [] [] with
      | none => none
      | some (.error e) => some (.error e)
      | some (.ok (internalFiles, importedDirectories)) =>
          some (.ok
            ({ name := nsPrefix, is_public := isRootDirectoryPublic,
               entry_point := entryPointFile, internal_files := internalFiles }
              :: importedDirectories))

/-- `recursively_collect_module_directories`. The fuel cuts only the
recursion into nested directory scopes; each such scope's directory path is
one component longer than its parent's, so any fuel exceeding the longest
path in the file system makes the zero-fuel branch unreachable (proved in
`collectModuleDirectories_isSome`). -/
def recursivelyCollectModuleDirectories (fs : Fs) :
    Nat → FsPath → FsPath → Bool → String →
    Option (Except ExtractionError (List ModuleDirectory))
  | 0, entry, dir, isPub, ns =>
      collectLevel fs (fun _ _ _ _ => none) entry dir isPub ns
  | fuel + 1, entry, dir, isPub, ns =>
      collectLevel fs (recursivelyCollectModuleDirectories fs fuel) entry dir
        isPub ns

/-- Number of components of the longest path present in the file system. -/
def maxPathLen (fs : Fs) : Nat :=
  fs.files.foldl (fun acc e => max acc e.1.length) 0

/-- `collect_module_directories`: starts at the entry point with its parent
directory (`entry_point.parent().unwrap()`), public root, empty namespace. -/
def collectModuleDirectories (fs : Fs) (entryPoint : FsPath) :
    Option (Except ExtractionError (List ModuleDirectory)) :=
  recursivelyCollectModuleDirectories fs (maxPathLen fs + 1) entryPoint
    entryPoint.dropLast true ""

/-!
## Statement-side vocabulary

`joinSS` joins path segments with `::`; it is the specification's notion of
a qualified name and is used to state claims about well-formed module names
(non-empty, colon-free segments), never inside the embedded code.
-/

def joinSS : List String → String
  | [] => ""
  | [s] => s
  | s :: t :: rest => s ++ "::" ++ joinSS (t :: rest)

/-- The comparator of `construct_namespaces` restricted to the namespace
name (the only component it inspects); `namespaceLE a b = nameLE a.name
b.name` definitionally. -/
def nameLE (x y : String) : Bool :=
  if countSS x.data = countSS y.data then decide (x ≤ y)
  else decide (countSS x.data < countSS y.data)

/-- A crate with one public root module declaring the two symbols `a` and
`b`: the final declaration table has the two keys `a` and `b`, read out in
a hash-seed-dependent order. -/
def c2Mods : List Module :=
  [⟨"", true, none,
    [.symbol ⟨"a", "pub fn a() {}"⟩, .symbol ⟨"b", "pub fn b() {}"⟩]⟩]

/-- The cyclic module graph of the source's unit test
`test_circular_module_dependency`: `module_a.rs` declares `mod module_b;`
and `module_b.rs` declares `mod module_a;`, both flat files. -/
def cyclicFs : Fs :=
  ⟨[(["src", "module_a.rs"],
     ⟨none, [.moduleImport "module_b" true,
             .symbol ⟨"module_a_function", "pub fn module_a_function() {}"⟩]⟩),
    (["src", "module_b.rs"],
     ⟨none, [.moduleImport "module_a" true,
             .symbol ⟨"module_b_function", "pub fn module_b_function() {}"⟩]⟩)]⟩

/-- A crate whose root file declares `mod a;` twice (the parser is lenient
and passes both declarations on), with `a` living at `src/a/mod.rs`. -/
def dupModFs : Fs :=
  ⟨[(["src", "lib.rs"],
     ⟨none, [.moduleImport "a" true, .moduleImport "a" true]⟩),
    (["src", "a", "mod.rs"],
     ⟨none, [.symbol ⟨"X", "pub struct X;"⟩]⟩)]⟩

/-!
## String lemmas
-/

lemma strStartsWith_self_append (pre rest : String) :
    strStartsWith (pre ++ rest) pre = true := by
  simp [strStartsWith, String.data_append, List.isPrefixOf_iff_prefix]

lemma strStartsWith_super_crate (rest : String) :
    strStartsWith ("super::" ++ rest) "crate::" = false := by
  simp [strStartsWith, String.data_append]
  rfl

lemma strDrop_super (rest : String) : strDrop ("super::" ++ rest) 7 = rest := by
  have h : ("super::" ++ rest).data = "super::".data ++ rest.data :=
    String.data_append ..
  simp only [strDrop, h]
  rw [show (7 : Nat) = "super::".data.length from rfl, List.drop_left]

lemma lastSS_noColon (cs : List Char) (h : ∀ c ∈ cs, c ≠ ':') :
    lastSS cs = none := by
  induction cs with
  | nil => rfl
  | cons c rest ih =>
      have hr : lastSS rest = none := ih (fun d hd => h d (List.mem_cons_of_mem _ hd))
      have hc : ¬ (c = ':' ∧ rest.head? = some ':') := by
        rintro ⟨h1, _⟩
        exact h c (List.mem_cons_self c rest) h1
      simp [lastSS, hr, hc]

lemma lastSS_append_sep (xs ys : List Char) (hy : ∀ c ∈ ys, c ≠ ':') :
    lastSS (xs ++ ':' :: ':' :: ys) = some xs.length := by
  induction xs with
  | nil =>
      have h1 : lastSS ys = none := lastSS_noColon ys hy
      have hh2 : ys.head? ≠ some ':' := by
        intro h3
        cases ys with
        | nil => simp at h3
        | cons y t =>
            simp at h3
            exact hy y (List.mem_cons_self y t) h3
      simp [lastSS, h1, hh2]
  | cons x xs ih =>
      simp [lastSS, List.cons_append, ih]

lemma joinSS_two_decomp : ∀ (rest : List String) (s t : String),
    joinSS (s :: t :: rest) =
      joinSS ((s :: t :: rest).dropLast) ++ "::" ++ (s :: t :: rest).getLastD "" := by
  intro rest
  induction rest with
  | nil => intro s t; rfl
  | cons r rs ih =>
      intro s t
      have h1 : joinSS (s :: t :: r :: rs) = s ++ "::" ++ joinSS (t :: r :: rs) := rfl
      rw [h1, ih t r]
      have h2 : (s :: t :: r :: rs).dropLast = s :: (t :: r :: rs).dropLast := by
        simp [List.dropLast]
      have h3 : (s :: t :: r :: rs).getLastD "" = (t :: r :: rs).getLastD "" := by
        simp [List.getLastD_cons]
      rw [h2, h3]
      have h4 : joinSS (s :: (t :: r :: rs).dropLast) =
          s ++ "::" ++ joinSS ((t :: r :: rs).dropLast) := by
        have : (t :: r :: rs).dropLast = t :: (r :: rs).dropLast := by
          simp [List.dropLast]
        rw [this]
        rfl
      rw [h4]
      simp [String.append_assoc]

lemma joinSS_append_single : ∀ (l : List String) (r : String), l ≠ [] →
    joinSS (l ++ [r]) = joinSS l ++ "::" ++ r := by
  intro l
  induction l with
  | nil => intro r h; exact absurd rfl h
  | cons s t ih =>
      intro r _
      cases t with
      | nil => rfl
      | cons u v =>
          have h1 : (s :: u :: v) ++ [r] = s :: ((u :: v) ++ [r]) := rfl
          have h2 : (u :: v) ++ [r] = u :: (v ++ [r]) := rfl
          rw [h1, h2]
          have h3 : joinSS (s :: u :: (v ++ [r])) = s ++ "::" ++ joinSS (u :: (v ++ [r])) := rfl
          rw [h3, ← h2, ih r (by simp)]
          have h4 : joinSS (s :: u :: v) = s ++ "::" ++ joinSS (u :: v) := rfl
          rw [h4]
          simp [String.append_assoc]

/-!
## C7: behaviour of `normalise_reference` on parent-scope (`super::`) paths
-/

/-- A `super::` reference from the root module produces the `Malformed`
error with the source's message. -/
lemma normaliseReference_super_root (rest : String) :
    normaliseReference ("super::" ++ rest) "" =
      .error (.malformed
        ("Cannot use super from the root module (super::" ++ rest ++ ")")) := by
  have hlit : "Cannot use super from the root module (" ++ "super::" =
      "Cannot use super from the root module (super::" := rfl
  simp only [normaliseReference, strStartsWith_super_crate, strStartsWith_self_append,
    Bool.false_eq_true, if_false, if_true, ite_true, ite_false, reduceIte]
  rw [← String.append_assoc, hlit]

lemma getLastD_mem {α : Type} : ∀ (l : List α) (d : α), l ≠ [] → l.getLastD d ∈ l := by
  intro l
  induction l with
  | nil => intro d h; exact absurd rfl h
  | cons a t ih =>
      intro d _
      cases t with
      | nil => simp [List.getLastD_cons]
      | cons b u =>
          rw [List.getLastD_cons]
          exact List.mem_cons_of_mem a (ih a (by simp))

/-- A `super::` reference from a module whose qualified name joins at least
one non-empty colon-free segment strips the trailing segment and prepends
the remainder. -/
lemma normaliseReference_super (rest : String) (segs : List String)
    (hne : segs ≠ []) (hwf : ∀ s ∈ segs, s ≠ "" ∧ ∀ c ∈ s.data, c ≠ ':') :
    normaliseReference ("super::" ++ rest) (joinSS segs) =
      .ok (joinSS (segs.dropLast ++ [rest])) := by
  cases segs with
  | nil => exact absurd rfl hne
  | cons s t =>
    cases t with
    | nil =>
        have hs := hwf s (List.mem_cons_self s [])
        have hcur : joinSS [s] = s := rfl
        have hnone : lastSS s.data = none := lastSS_noColon s.data hs.2
        simp only [normaliseReference, strStartsWith_super_crate,
          strStartsWith_self_append, Bool.false_eq_true, if_false, if_true,
          ite_true, ite_false, reduceIte, hcur, hnone, hs.1, strDrop_super]
        rfl
    | cons u v =>
        set L := (s :: u :: v).getLastD "" with hL
        have hLmem : L ∈ s :: u :: v := getLastD_mem _ _ (by simp)
        have hLwf := hwf L hLmem
        set X := joinSS ((s :: u :: v).dropLast) with hX
        have hdec : joinSS (s :: u :: v) = X ++ "::" ++ L := joinSS_two_decomp v s u
        have hdata : (joinSS (s :: u :: v)).data = X.data ++ ':' :: ':' :: L.data := by
          rw [hdec]
          simp [String.data_append]
        have hnotempty : joinSS (s :: u :: v) ≠ "" := by
          intro h
          have : (joinSS (s :: u :: v)).data = [] := by rw [h]
          rw [hdata] at this
          simp at this
        have hlast : lastSS (joinSS (s :: u :: v)).data = some X.data.length := by
          rw [hdata]
          exact lastSS_append_sep X.data L.data hLwf.2
        have htake : (joinSS (s :: u :: v)).data.take X.data.length = X.data := by
          rw [hdata, show X.data ++ ':' :: ':' :: L.data = X.data ++ (':' :: ':' :: L.data) from rfl]
          exact List.take_left X.data _
        have hdl : (s :: u :: v).dropLast ≠ [] := by
          cases v <;> simp [List.dropLast]
        simp only [normaliseReference, strStartsWith_super_crate,
          strStartsWith_self_append, Bool.false_eq_true, if_false, if_true,
          ite_true, ite_false, reduceIte, hnotempty, hlast, htake, strDrop_super]
        rw [joinSS_append_single _ rest hdl, ← hX]

/-- Every error `normalise_reference` constructs is `Malformed`. -/
lemma normaliseReference_error_malformed (r c : String) (e : ExtractionError)
    (h : normaliseReference r c = .error e) : ∃ msg, e = .malformed msg := by
  unfold normaliseReference at h
  repeat' split at h
  all_goals try cases h
  all_goals exact ⟨_, rfl⟩

/-- Phase 1 fails on a module whose items include a re-export whose
normalisation fails. -/
lemma collectFromItems_error_of_bad (mName : String) :
    ∀ (items : List ModuleItem) acc sp it, ModuleItem.symbolReexport sp it ∈ items →
      (∃ e, normaliseReference sp mName = .error e) →
      ∃ e2, collectFromItems mName items acc = .error e2 := by
  intro items
  induction items with
  | nil => intro acc sp it hmem _; simp at hmem
  | cons head rest ih =>
      intro acc sp it hmem herr
      obtain ⟨e, he⟩ := herr
      cases head with
      | symbol s =>
          have hmem2 : ModuleItem.symbolReexport sp it ∈ rest := by
            rcases List.mem_cons.mp hmem with h | h
            · cases h
            · exact h
          simp only [collectFromItems]
          exact ih _ sp it hmem2 ⟨e, he⟩
      | symbolReexport sp2 it2 =>
          rcases List.mem_cons.mp hmem with h | h
          · injection h with h1 h2
            subst h1
            simp only [collectFromItems, he]
            exact ⟨e, rfl⟩
          · simp only [collectFromItems]
            cases hnorm : normaliseReference sp2 mName with
            | error e3 => exact ⟨e3, rfl⟩
            | ok np => exact ih _ sp it h ⟨e, he⟩

lemma collectGo_error : ∀ (mods : List Module) acc (m : Module), m ∈ mods →
    (∀ acc2, ∃ e2, collectFromItems m.name m.symbols acc2 = .error e2) →
    ∃ e3, collectGo mods acc = .error e3 := by
  intro mods
  induction mods with
  | nil => intro acc m hmem _; simp at hmem
  | cons head rest ih =>
      intro acc m hmem hbad
      rcases List.mem_cons.mp hmem with h | h
      · subst h
        obtain ⟨e2, h2⟩ := hbad acc
        simp only [collectGo, h2]
        exact ⟨e2, rfl⟩
      · simp only [collectGo]
        cases hc : collectFromItems head.name head.symbols acc with
        | error e4 => exact ⟨e4, rfl⟩
        | ok acc2 => exact ih acc2 m h hbad

lemma collectFromItems_error_malformed (mName : String) :
    ∀ items acc e, collectFromItems mName items acc = .error e →
      ∃ msg, e = .malformed msg := by
  intro items
  induction items with
  | nil => intro acc e h; cases h
  | cons head rest ih =>
      intro acc e h
      cases head with
      | symbol s => exact ih _ e h
      | symbolReexport sp it =>
          simp only [collectFromItems] at h
          cases hnorm : normaliseReference sp mName with
          | error e3 =>
              rw [hnorm] at h
              injection h with h2
              exact h2 ▸ normaliseReference_error_malformed sp mName e3 hnorm
          | ok np =>
              rw [hnorm] at h
              exact ih _ e h

lemma collectGo_error_malformed : ∀ (mods : List Module) acc e,
    collectGo mods acc = .error e → ∃ msg, e = .malformed msg := by
  intro mods
  induction mods with
  | nil => intro acc e h; cases h
  | cons head rest ih =>
      intro acc e h
      simp only [collectGo] at h
      cases hc : collectFromItems head.name head.symbols acc with
      | error e4 =>
          rw [hc] at h
          injection h with h2
          exact h2 ▸ collectFromItems_error_malformed head.name _ _ e4 hc
      | ok acc2 =>
          rw [hc] at h
          exact ih _ e h

lemma resolveSymbols_error_of_collect (mods : List Module) (e : ExtractionError)
    (h : collectSymbolsAndReferences mods = .error e) :
    resolveSymbols mods = .error e := by
  simp [resolveSymbols, resolvePublicSymbols, resolutionTable, resolveReferences, h]

/-- C7: a re-export path beginning with the parent-scope qualifier
`super::` makes symbol resolution fail with a `Malformed` error when it
occurs in the root module (the module with the empty qualified name); from
any module with a non-empty qualified name (a `::`-join of non-empty,
colon-free segments) a `super::` reference does not error and is normalised
by stripping one trailing `::`-segment from the module's qualified name and
prepending the remainder of the reference. -/
theorem c7_super_at_root (rest : String) (segs : List String)
    (allModules : List Module) (it : ImportType) :
    (normaliseReference ("super::" ++ rest) "" =
      .error (.malformed
        ("Cannot use super from the root module (super::" ++ rest ++ ")"))) ∧
    (segs ≠ [] → (∀ s ∈ segs, s ≠ "" ∧ ∀ c ∈ s.data, c ≠ ':') →
      normaliseReference ("super::" ++ rest) (joinSS segs) =
        .ok (joinSS (segs.dropLast ++ [rest]))) ∧
    ((∃ m ∈ allModules, m.name = "" ∧
        ModuleItem.symbolReexport ("super::" ++ rest) it ∈ m.symbols) →
      ∃ msg, resolveSymbols allModules = .error (.malformed msg)) := by
  refine ⟨normaliseReference_super_root rest,
    fun hne hwf => normaliseReference_super rest segs hne hwf, ?_⟩
  rintro ⟨m, hm, hname, hitem⟩
  have hbad : ∀ acc2, ∃ e2, collectFromItems m.name m.symbols acc2 = .error e2 := by
    intro acc2
    apply collectFromItems_error_of_bad m.name m.symbols acc2 _ it hitem
    rw [hname]
    exact ⟨_, normaliseReference_super_root rest⟩
  obtain ⟨e3, h3⟩ := collectGo_error allModules ([], []) m hm hbad
  obtain ⟨msg, hmsg⟩ := collectGo_error_malformed allModules ([], []) e3 h3
  refine ⟨msg, ?_⟩
  have hc : collectSymbolsAndReferences allModules = .error e3 := h3
  rw [resolveSymbols_error_of_collect allModules e3 hc, hmsg]

/-- Witness for C7 at concrete inputs: a `super::x` reference from the root
errors, from `a::b` it normalises to `a::x`, and a root module carrying the
reference makes the whole resolution fail. -/
theorem c7_super_at_root_witness :
    (normaliseReference ("super::" ++ "x") "" =
      .error (.malformed
        ("Cannot use super from the root module (super::" ++ "x" ++ ")"))) ∧
    normaliseReference ("super::" ++ "x") (joinSS ["a", "b"]) =
      .ok (joinSS (["a", "b"].dropLast ++ ["x"])) ∧
    ∃ msg, resolveSymbols
        [{ name := "", is_public := true, doc_comment := none,
           symbols := [.symbolReexport ("super::" ++ "x") .Simple] }] =
      .error (.malformed msg) := by
  obtain ⟨h1, h2, h3⟩ := c7_super_at_root "x" ["a", "b"]
    [{ name := "", is_public := true, doc_comment := none,
       symbols := [.symbolReexport ("super::" ++ "x") .Simple] }] .Simple
  refine ⟨h1, h2 (by decide) (by decide), h3 ?_⟩
  refine ⟨_, List.mem_cons_self _ _, rfl, List.mem_cons_self _ _⟩

/-!
## C10: a `ModuleImport` with no internal file is silently skipped
-/

lemma extractItemsTop_skip (rootModuleName : String)
    (internalFiles : List (String × RustFile)) (name : String) (isReexported : Bool)
    (h : listLookup internalFiles name = none) :
    ∀ (pre post : List RustSymbol),
      extractItemsTop rootModuleName internalFiles
          (pre ++ RustSymbol.moduleImport name isReexported :: post) =
        extractItemsTop rootModuleName internalFiles (pre ++ post) := by
  intro pre
  induction pre with
  | nil =>
      intro post
      simp [extractItemsTop, h]
  | cons a rest ih =>
      intro post
      cases a with
      | symbol s => simp [extractItemsTop, ih post]
      | reexport sp it => simp [extractItemsTop, ih post]
      | moduleBlock n p c d => simp [extractItemsTop, ih post]
      | moduleImport n r =>
          simp only [List.cons_append, extractItemsTop]
          cases hl : listLookup internalFiles n with
          | none => simp [ih post]
          | some file => simp [ih post]

/-- C10: during module flattening, an external-module declaration
(`ModuleImport`) whose name has no entry in the directory's internal-files
map is silently skipped: flattening still returns Ok, and the output equals
the output for the same item list without that declaration (so no module is
emitted for the name and all other emitted modules are unchanged). -/
theorem c10_missing_internal_file_skipped (rootModuleName : String)
    (rootModuleIsPublic : Bool) (rootModuleDocComment : Option String)
    (pre post : List RustSymbol) (internalFiles : List (String × RustFile))
    (name : String) (isReexported : Bool)
    (h : listLookup internalFiles name = none) :
    extractModulesFromSymbols rootModuleName rootModuleIsPublic rootModuleDocComment
        (pre ++ RustSymbol.moduleImport name isReexported :: post) internalFiles =
      extractModulesFromSymbols rootModuleName rootModuleIsPublic rootModuleDocComment
        (pre ++ post) internalFiles ∧
    ∃ mods, extractModulesFromSymbols rootModuleName rootModuleIsPublic
        rootModuleDocComment
        (pre ++ RustSymbol.moduleImport name isReexported :: post) internalFiles =
      .ok mods := by
  constructor
  · simp only [extractModulesFromSymbols,
      extractItemsTop_skip rootModuleName internalFiles name isReexported h pre post]
  · exact ⟨_, rfl⟩

/-- Witness for C10: flattening a root file whose only item is a dangling
`mod missing_module;` declaration yields just the (empty) root module. -/
theorem c10_missing_internal_file_skipped_witness :
    listLookup ([] : List (String × RustFile)) "missing_module" = none ∧
    extractModulesFromSymbols "" true none
        ([] ++ RustSymbol.moduleImport "missing_module" true :: []) [] =
      extractModulesFromSymbols "" true none ([] ++ []) [] := by
  exact ⟨rfl, (c10_missing_internal_file_skipped "" true none [] [] [] "missing_module"
    true rfl).1⟩

/-!
## C1: no private leakage
-/

/-- After the post-resolution filter, every modules list of every table
entry is contained in the public set. -/
lemma resolutionTable_modules_public (mods : List Module)
    (table : List (String × SymbolDeclaration))
    (h : resolutionTable mods = .ok table) :
    ∀ kv ∈ table, ∀ mp ∈ kv.2.modules, mp ∈ publicModulePaths mods := by
  unfold resolutionTable at h
  split at h
  · cases h
  · simp only [] at h
    split at h
    · cases h
    · injection h with h2
      subst h2
      intro kv hkv mp hmp
      obtain ⟨kv0, _, hkv0⟩ := List.mem_map.mp hkv
      rw [← hkv0] at hmp
      simp only [restrictModules] at hmp
      have := List.mem_filter.mp hmp
      exact of_decide_eq_true this.2

/-- C1: for every `ResolvedSymbol` in the output of symbol resolution,
every module path in its `modules` list is the qualified name of a module
with `is_public = true`, and the list is non-empty (a symbol whose
intersection with the public set is empty has been dropped entirely). -/
theorem c1_no_private_leakage (allModules : List Module) (res : SymbolResolution)
    (h : resolveSymbols allModules = .ok res) :
    ∀ s ∈ res.symbols,
      (∀ mp ∈ s.modules, ∃ m ∈ allModules, m.is_public = true ∧ m.name = mp) ∧
      s.modules ≠ [] := by
  intro s hs
  unfold resolveSymbols at h
  cases hps : resolvePublicSymbols allModules with
  | error e => rw [hps] at h; cases h
  | ok syms =>
      rw [hps] at h
      injection h with h2
      have hsyms : res.symbols = syms := by rw [← h2]
      rw [hsyms] at hs
      unfold resolvePublicSymbols at hps
      cases hrt : resolutionTable allModules with
      | error e => rw [hrt] at hps; cases hps
      | ok table =>
          rw [hrt] at hps
          injection hps with h3
          rw [← h3] at hs
          have hmem := List.mem_filter.mp hs
          obtain ⟨kv, hkv, hkv2⟩ := List.mem_map.mp hmem.1
          have hpub : ∀ mp ∈ s.modules, mp ∈ publicModulePaths allModules := by
            intro mp hmp
            exact resolutionTable_modules_public allModules table hrt kv hkv mp
              (by rw [hkv2]; exact hmp)
          constructor
          · intro mp hmp
            have := hpub mp hmp
            simp only [publicModulePaths, List.mem_map, List.mem_filter] at this
            obtain ⟨m, ⟨hm1, hm2⟩, hm3⟩ := this
            exact ⟨m, hm1, hm2, hm3⟩
          · have hk := hmem.2
            unfold keepPublic at hk
            obtain ⟨mp, hmp, _⟩ := List.any_eq_true.mp hk
            intro hempty
            rw [hempty] at hmp
            cases hmp

/-- Witness for C1: a root module with one symbol resolves to a single
declaration whose modules list is the non-empty public singleton. -/
theorem c1_no_private_leakage_witness :
    ∃ res, resolveSymbols
        [{ name := "", is_public := true, doc_comment := none,
           symbols := [.symbol { name := "f", source_code := "pub fn f();" }] }] =
      .ok res ∧
    ∀ s ∈ res.symbols,
      (∀ mp ∈ s.modules,
        ∃ m ∈ [{ name := "", is_public := true, doc_comment := none,
                 symbols := [ModuleItem.symbol
                   { name := "f", source_code := "pub fn f();" }] }],
          Module.is_public m = true ∧ Module.name m = mp) ∧
      s.modules ≠ [] := by
  refine ⟨_, rfl, c1_no_private_leakage _ _ rfl⟩

/-!
## C8: namespace ordering
-/

lemma namespaceLE_trans (a b c : Namespace) (h1 : namespaceLE a b = true)
    (h2 : namespaceLE b c = true) : namespaceLE a c = true := by
  unfold namespaceLE at h1 h2 ⊢
  by_cases e1 : countSS a.name.data = countSS b.name.data
  · by_cases e2 : countSS b.name.data = countSS c.name.data
    · rw [if_pos e1] at h1
      rw [if_pos e2] at h2
      rw [if_pos (e1.trans e2)]
      exact decide_eq_true (le_trans (of_decide_eq_true h1) (of_decide_eq_true h2))
    · rw [if_neg e2] at h2
      have l2 : countSS b.name.data < countSS c.name.data := of_decide_eq_true h2
      rw [if_neg (by omega)]
      exact decide_eq_true (by omega)
  · rw [if_neg e1] at h1
    have l1 : countSS a.name.data < countSS b.name.data := of_decide_eq_true h1
    by_cases e2 : countSS b.name.data = countSS c.name.data
    · rw [if_neg (by omega)]
      exact decide_eq_true (by omega)
    · rw [if_neg e2] at h2
      have l2 : countSS b.name.data < countSS c.name.data := of_decide_eq_true h2
      rw [if_neg (by omega)]
      exact decide_eq_true (by omega)

lemma namespaceLE_total (a b : Namespace) :
    (namespaceLE a b || namespaceLE b a) = true := by
  unfold namespaceLE
  by_cases e : countSS a.name.data = countSS b.name.data
  · rw [if_pos e, if_pos e.symm]
    rcases le_total a.name b.name with h | h
    · simp [h]
    · simp [h]
  · rw [if_neg e, if_neg (fun h => e h.symm)]
    rcases Nat.lt_or_ge (countSS a.name.data) (countSS b.name.data) with h | h
    · simp [h]
    · have h2 : countSS b.name.data < countSS a.name.data :=
        lt_of_le_of_ne h (fun x => e x.symm)
      simp [h2]

/-- C8: every output of namespace construction is sorted by the number of
`::` separators in the namespace name ascending, with ties broken
lexicographically by name. -/
theorem c8_namespace_ordering (res : SymbolResolution) (crateName : String) :
    List.Pairwise
      (fun a b : Namespace =>
        countSS a.name.data < countSS b.name.data ∨
        (countSS a.name.data = countSS b.name.data ∧ a.name ≤ b.name))
      (constructNamespaces res crateName) := by
  unfold constructNamespaces
  refine List.Pairwise.imp ?_
    (@List.sorted_mergeSort Namespace namespaceLE
      (fun a b c h1 h2 => namespaceLE_trans a b c h1 h2)
      (fun a b => namespaceLE_total a b) _)
  intro a b hab
  unfold namespaceLE at hab
  by_cases e : countSS a.name.data = countSS b.name.data
  · rw [if_pos e] at hab
    exact Or.inr ⟨e, of_decide_eq_true hab⟩
  · rw [if_neg e] at hab
    exact Or.inl (of_decide_eq_true hab)

/-!
## C6: unresolved references are not errors

The claim as frozen is falsified by a key collision: when the synthetic
Simple re-export's insertion key (`host::last_segment(src)`) is already
occupied — e.g. the host module itself declares a symbol of that name — the
synthetic is merged into the existing entry instead of being emitted, so no
`pub use src;` declaration appears in the output. Without such a collision
the claim's behaviour holds, which is the amended theorem below.
-/

/-- Counterexample to C6 as stated: module `outer` declares a symbol `test`
and re-exports the unresolvable path `missing::test`; resolution returns Ok
but emits no synthetic `pub use missing::test;` symbol — the synthetic is
swallowed by the existing entry at key `outer::test`. -/
theorem c6_unresolved_counterexample :
    resolveSymbols [⟨"outer", true, none,
        [.symbol ⟨"test", "pub fn test();"⟩,
         .symbolReexport "missing::test" .Simple]⟩] =
      .ok ⟨[⟨⟨"test", "pub fn test();"⟩, ["outer"]⟩], []⟩ ∧
    ∀ s ∈ [(⟨⟨"test", "pub fn test();"⟩, ["outer"]⟩ : SymbolDeclaration)],
      s.symbol.source_code ≠ "pub use missing::test;" := by
  exact ⟨rfl, by decide⟩

/-- C6 (amended): a reference whose source path matches no declaration, no
module and no chained re-exporter resolves without error to exactly one
synthetic `ResolvedSymbol` — source `pub use src;` (Simple),
`pub use src as alias;` (Aliased) or `pub use src::*;` (Wildcard), visible
exactly at the referencing module — provided the synthetic's insertion key
is fresh (here: the referencing module is the only module and declares
nothing else). -/
theorem c6_unresolved_reference (h src : String) (kind : ImportType)
    (hnorm : normaliseReference src h = .ok src)
    (hfull : getSymbolPathFromModulePath src h ≠ h)
    (hfirst : firstSeg src ≠ h) :
    (kind = .Simple → resolveSymbols [⟨h, true, none, [.symbolReexport src kind]⟩] =
      .ok ⟨[⟨⟨lastSeg src, "pub use " ++ src ++ ";"⟩, [h]⟩], []⟩) ∧
    (∀ a, kind = .Aliased a → resolveSymbols [⟨h, true, none, [.symbolReexport src kind]⟩] =
      .ok ⟨[⟨⟨a, "pub use " ++ src ++ " as " ++ a ++ ";"⟩, [h]⟩], []⟩) ∧
    (kind = .Wildcard → resolveSymbols [⟨h, true, none, [.symbolReexport src kind]⟩] =
      .ok ⟨[⟨⟨lastSeg src, "pub use " ++ src ++ "::*;"⟩, [h]⟩], []⟩) := by
  refine ⟨?_, ?_, ?_⟩
  · rintro rfl
    simp [resolveSymbols, resolvePublicSymbols, resolutionTable,
      collectSymbolsAndReferences, collectGo, collectFromItems, hnorm,
      resolveReferences, resolveReferencesGo, resolveSymbolReference,
      publicModulePaths, chainSearchWith, getModuleDeclarationsWith,
      applyContribution, simpleInsertKey, recreateReexport, keepPublic, restrictModules, getDocCommentsByModule,
      listLookup, tableInsert, tableRemove, resolutionFuel, hfull, hfirst,
      Ne.symm hfull, Ne.symm hfirst]
  · rintro a rfl
    simp [resolveSymbols, resolvePublicSymbols, resolutionTable,
      collectSymbolsAndReferences, collectGo, collectFromItems, hnorm,
      resolveReferences, resolveReferencesGo, resolveSymbolReference,
      publicModulePaths, chainSearchWith, getModuleDeclarationsWith,
      applyContribution, simpleInsertKey, recreateReexport, keepPublic, restrictModules, getDocCommentsByModule,
      listLookup, tableInsert, tableRemove, resolutionFuel, hfull, hfirst,
      Ne.symm hfull, Ne.symm hfirst]
  · rintro rfl
    simp [resolveSymbols, resolvePublicSymbols, resolutionTable,
      collectSymbolsAndReferences, collectGo, collectFromItems, hnorm,
      resolveReferences, resolveReferencesGo, resolveSymbolReference,
      publicModulePaths, chainSearchWith, getModuleDeclarationsWith,
      applyContribution, simpleInsertKey, recreateReexport, keepPublic, restrictModules, getDocCommentsByModule,
      listLookup, tableInsert, tableRemove, resolutionFuel, hfull, hfirst,
      Ne.symm hfull, Ne.symm hfirst, strStartsWith]

/-- Witness for C6 at `outer` re-exporting `missing::test` in all three
shapes. -/
theorem c6_unresolved_reference_witness :
    resolveSymbols [⟨"outer", true, none, [.symbolReexport "missing::test" .Simple]⟩] =
      .ok ⟨[⟨⟨lastSeg "missing::test", "pub use " ++ "missing::test" ++ ";"⟩,
        ["outer"]⟩], []⟩ ∧
    resolveSymbols [⟨"outer", true, none,
        [.symbolReexport "missing::test" (.Aliased "aliased_test")]⟩] =
      .ok ⟨[⟨⟨"aliased_test",
        "pub use " ++ "missing::test" ++ " as " ++ "aliased_test" ++ ";"⟩,
        ["outer"]⟩], []⟩ ∧
    resolveSymbols [⟨"outer", true, none, [.symbolReexport "missing" .Wildcard]⟩] =
      .ok ⟨[⟨⟨lastSeg "missing", "pub use " ++ "missing" ++ "::*;"⟩, ["outer"]⟩], []⟩ := by
  refine ⟨?_, ?_, ?_⟩
  · exact (c6_unresolved_reference "outer" "missing::test" .Simple rfl (by decide)
      (by decide)).1 rfl
  · exact (c6_unresolved_reference "outer" "missing::test" (.Aliased "aliased_test")
      rfl (by decide) (by decide)).2.1 "aliased_test" rfl
  · exact (c6_unresolved_reference "outer" "missing" .Wildcard rfl (by decide)
      (by decide)).2.2 rfl

/-!
## C5: aliased re-export semantics

The claim as frozen is falsified by chained resolution: when the underlying
declaration is reached through another re-exporter (not directly in the
declaration table), `resolve_symbol_reference` already renames the
declaration's `name` to the alias while keeping its source code, so the
later word-boundary substitution replaces the alias by itself and the
source code stays the original, unrenamed text.
-/

/-- Counterexample to C5 as stated: `pub use a::X as Y;` at the root, where
private module `a` re-exports `b::X` and private module `b` declares
`pub struct X;`. The chain contains private modules, so the claim requires
the source `pub struct Y;` (word-boundary rename of `X`); the code produces
the unrenamed `pub struct X;`. -/
theorem c5_aliased_counterexample :
    resolveSymbols [⟨"", true, none, [.symbolReexport "a::X" (.Aliased "Y")]⟩,
        ⟨"a", false, none, [.symbolReexport "b::X" .Simple]⟩,
        ⟨"b", false, none, [.symbol ⟨"X", "pub struct X;"⟩]⟩] =
      .ok ⟨[⟨⟨"Y", "pub struct X;"⟩, [""]⟩], []⟩ ∧
    replaceWordBounded "pub struct X;" "X" "Y" = "pub struct Y;" ∧
    "pub struct X;" ≠ "pub struct Y;" := by
  refine ⟨rfl, by decide, by decide⟩

/-- C5 (amended): for an aliased re-export `(src, host, Aliased(alias))`
whose underlying declaration is found directly in the declaration table,
the produced `ResolvedSymbol` has name `alias`, modules exactly `[host]`,
and source `pub use src as alias;` when every module of the chain (the
declaration's modules plus host) is public, otherwise the original
declaration's source with every word-boundary occurrence of the original
name replaced by the alias. (When the declaration is only reachable through
a chain of re-exporters the rename step is a no-op; see the
counterexample.) -/
theorem c5_aliased_direct (h dm a src0 : String) (s : Symbol) (dpub : Bool)
    (hnorm : normaliseReference src0 h = .ok src0)
    (hsrc : getSymbolPathFromModulePath s.name dm = src0)
    (hfull : getSymbolPathFromModulePath src0 h ≠ src0)
    (hdm : dm ≠ h)
    (hkey : getSymbolPathFromModulePath a h ≠ src0) :
    resolveSymbols [⟨h, true, none, [.symbolReexport src0 (.Aliased a)]⟩,
        ⟨dm, dpub, none, [.symbol s]⟩] =
      .ok ⟨(if dpub then [⟨s, [dm]⟩] else []) ++
        [⟨⟨a, if dpub then "pub use " ++ src0 ++ " as " ++ a ++ ";"
              else replaceWordBounded s.source_code s.name a⟩, [h]⟩], []⟩ := by
  cases dpub with
  | true =>
      simp [resolveSymbols, resolvePublicSymbols, resolutionTable,
        collectSymbolsAndReferences, collectGo, collectFromItems, hnorm, hsrc,
        resolveReferences, resolveReferencesGo, resolveSymbolReference,
        publicModulePaths, chainSearchWith, getModuleDeclarationsWith,
        applyContribution, simpleInsertKey, recreateReexport, keepPublic, restrictModules, getDocCommentsByModule,
        listLookup, tableInsert, tableRemove, resolutionFuel,
        renameSymbolInSourceCode, resolveFoundDeclaration,
        hfull, Ne.symm hfull, hdm, Ne.symm hdm, hkey, Ne.symm hkey]
  | false =>
      simp [resolveSymbols, resolvePublicSymbols, resolutionTable,
        collectSymbolsAndReferences, collectGo, collectFromItems, hnorm, hsrc,
        resolveReferences, resolveReferencesGo, resolveSymbolReference,
        publicModulePaths, chainSearchWith, getModuleDeclarationsWith,
        applyContribution, simpleInsertKey, recreateReexport, keepPublic, restrictModules, getDocCommentsByModule,
        listLookup, tableInsert, tableRemove, resolutionFuel,
        renameSymbolInSourceCode, resolveFoundDeclaration,
        hfull, Ne.symm hfull, hdm, Ne.symm hdm, hkey, Ne.symm hkey]

/-- Witness for C5 at a concrete input with a private declaring module, so
the rename branch is exercised. -/
theorem c5_aliased_direct_witness :
    resolveSymbols [⟨"host", true, none, [.symbolReexport "inner::X" (.Aliased "Y")]⟩,
        ⟨"inner", false, none, [.symbol ⟨"X", "pub struct X;"⟩]⟩] =
      .ok ⟨(if false then [⟨⟨"X", "pub struct X;"⟩, ["inner"]⟩] else []) ++
        [⟨⟨"Y", if false then "pub use " ++ "inner::X" ++ " as " ++ "Y" ++ ";"
                else replaceWordBounded "pub struct X;" "X" "Y"⟩, ["host"]⟩], []⟩ := by
  exact c5_aliased_direct "host" "inner" "Y" "inner::X" ⟨"X", "pub struct X;"⟩ false
    rfl rfl (by decide) (by decide) (by decide)

/-!
## C3: multi-path merge

The claim as frozen is falsified: a Simple re-export from a non-root host
moves the resolved entry to key `host::last_segment(src)` and removes the
original declaration's key from the table, so a later Simple re-export of
the same source no longer finds the declaration and yields a separate
synthetic entry — two `ResolvedSymbol`s instead of one carrying all paths.
The union-on-existing-key behaviour of the insertion step itself does hold
and is the amended theorem.
-/

lemma listLookup_tableInsert_self {α : Type} (t : List (String × α)) (k : String)
    (v : α) : listLookup (tableInsert t k v) k = some v := by
  induction t with
  | nil => simp [tableInsert, listLookup]
  | cons kv rest ih =>
      by_cases h : kv.1 = k
      · simp [tableInsert, listLookup, h]
      · simp [tableInsert, listLookup, h, ih]

lemma listLookup_tableInsert_other {α : Type} (t : List (String × α))
    (k k2 : String) (v : α) (h : k2 ≠ k) :
    listLookup (tableInsert t k v) k2 = listLookup t k2 := by
  have h2 : k ≠ k2 := fun x => h x.symm
  induction t with
  | nil => simp [tableInsert, listLookup, h2]
  | cons kv rest ih =>
      by_cases hk : kv.1 = k
      · simp [tableInsert, listLookup, hk, h2]
      · simp only [tableInsert, if_neg hk]
        by_cases hk2 : kv.1 = k2
        · simp [listLookup, hk2]
        · simp [listLookup, hk2, ih]

lemma dedupGo_mem (x : String) : ∀ (l seen : List String),
    x ∈ dedupGo seen l ↔ x ∈ l ∧ x ∉ seen := by
  intro l
  induction l with
  | nil => intro seen; simp [dedupGo]
  | cons y rest ih =>
      intro seen
      by_cases hy : y ∈ seen
      · simp only [dedupGo, if_pos hy, ih, List.mem_cons]
        constructor
        · rintro ⟨h1, h2⟩; exact ⟨Or.inr h1, h2⟩
        · rintro ⟨h1 | h1, h2⟩
          · exact absurd (h1 ▸ hy) h2
          · exact ⟨h1, h2⟩
      · simp only [dedupGo, if_neg hy, List.mem_cons, ih]
        constructor
        · rintro (h1 | ⟨h1, h2⟩)
          · exact ⟨Or.inl h1, h1 ▸ hy⟩
          · exact ⟨Or.inr h1, fun hx => h2 (Or.inr hx)⟩
        · rintro ⟨h1 | h1, h2⟩
          · exact Or.inl h1
          · by_cases hxy : x = y
            · exact Or.inl hxy
            · exact Or.inr ⟨h1, by simp [hxy, h2]⟩

lemma dedupKeepFirst_mem (x : String) (l : List String) :
    x ∈ dedupKeepFirst l ↔ x ∈ l := by
  unfold dedupKeepFirst
  rw [dedupGo_mem]
  simp

lemma listLookup_append {α : Type} (t1 t2 : List (String × α)) (k : String) :
    listLookup (t1 ++ t2) k =
      (match listLookup t1 k with
       | some v => some v
       | none => listLookup t2 k) := by
  induction t1 with
  | nil => simp [listLookup]
  | cons kv rest ih =>
      by_cases h : kv.1 = k
      · simp [listLookup, h]
      · simp [listLookup, h, ih]

lemma tableInsert_fresh {α : Type} (t : List (String × α)) (k : String) (v : α)
    (h : listLookup t k = none) : tableInsert t k v = t ++ [(k, v)] := by
  induction t with
  | nil => rfl
  | cons kv rest ih =>
      by_cases hk : kv.1 = k
      · simp [listLookup, hk] at h
      · simp only [listLookup, if_neg hk] at h
        simp [tableInsert, hk, ih h]

/-- Folding fresh-key insertions over a table appends the entries in
order. -/
lemma foldl_tableInsert_fresh {α β : Type} (keyf : β → String) (valf : β → α) :
    ∀ (ds : List β) (t : List (String × α)),
      (∀ d ∈ ds, listLookup t (keyf d) = none) →
      List.Pairwise (fun d1 d2 => keyf d1 ≠ keyf d2) ds →
      ds.foldl (fun tt d => tableInsert tt (keyf d) (valf d)) t =
        t ++ ds.map (fun d => (keyf d, valf d)) := by
  intro ds
  induction ds with
  | nil => intro t _ _; simp
  | cons d rest ih =>
      intro t hfresh hpw
      have hd : listLookup t (keyf d) = none := hfresh d (List.mem_cons_self ..)
      have hins : tableInsert t (keyf d) (valf d) = t ++ [(keyf d, valf d)] :=
        tableInsert_fresh t (keyf d) (valf d) hd
      have hpw2 := List.pairwise_cons.mp hpw
      have hfresh2 : ∀ e ∈ rest, listLookup (t ++ [(keyf d, valf d)]) (keyf e) = none := by
        intro e he
        rw [listLookup_append, hfresh e (List.mem_cons_of_mem _ he)]
        simp [listLookup, hpw2.1 e he]
      simp only [List.foldl_cons, hins, ih _ hfresh2 hpw2.2, List.append_assoc,
        List.map_cons, List.singleton_append]

lemma getSymbolPathFromModulePath_inj (mn n1 n2 : String)
    (h : getSymbolPathFromModulePath n1 mn = getSymbolPathFromModulePath n2 mn) :
    n1 = n2 := by
  unfold getSymbolPathFromModulePath at h
  by_cases hm : mn = ""
  · simpa [hm] using h
  · simp only [if_neg hm] at h
    have h2 : (mn ++ "::" ++ n1).data = (mn ++ "::" ++ n2).data := by rw [h]
    rw [String.data_append, String.data_append, String.data_append,
      String.data_append] at h2
    exact String.ext (List.append_cancel_left h2)

lemma listLookup_map_none {α β : Type} (keyf : β → String) (valf : β → α)
    (k : String) : ∀ (l : List β), (∀ x ∈ l, keyf x ≠ k) →
      listLookup (l.map (fun x => (keyf x, valf x))) k = none := by
  intro l
  induction l with
  | nil => intro _; rfl
  | cons x rest ih =>
      intro hx
      simp only [List.map_cons, listLookup]
      rw [if_neg (hx x (List.mem_cons_self ..))]
      exact ih (fun y hy => hx y (List.mem_cons_of_mem _ hy))

/-- Counterexample to C3 as stated: `inner::test` is re-exported by the two
public modules `a` and `b`; the output contains two `ResolvedSymbol`s and
none of them carries both paths `a` and `b` in its modules list. -/
theorem c3_counterexample :
    resolveSymbols [⟨"a", true, none, [.symbolReexport "inner::test" .Simple]⟩,
        ⟨"b", true, none, [.symbolReexport "inner::test" .Simple]⟩,
        ⟨"inner", true, none, [.symbol ⟨"test", "pub fn test();"⟩]⟩] =
      .ok ⟨[⟨⟨"test", "pub fn test();"⟩, ["inner", "a"]⟩,
            ⟨⟨"test", "pub use inner::test;"⟩, ["b"]⟩], []⟩ ∧
    ∀ s ∈ [⟨⟨"test", "pub fn test();"⟩, ["inner", "a"]⟩,
           (⟨⟨"test", "pub use inner::test;"⟩, ["b"]⟩ : SymbolDeclaration)],
      ¬("a" ∈ s.modules ∧ "b" ∈ s.modules) := by
  exact ⟨rfl, by decide⟩

/-- C3 (amended): when a Simple contribution is inserted at a
declaration-table key that already holds an entry, the existing entry's
modules list is replaced by the (deduplicated) union of both lists — no
overwrite — and every other key is untouched. A single `ResolvedSymbol`
carrying several re-export paths therefore arises exactly when the
insertions hit the same key; a Simple re-export from a non-root host moves
the entry to `host::last_segment(src)` and deletes the original key, so a
later re-export of the same source produces a separate synthetic entry (see
the counterexample). -/
theorem c3_simple_union_merge (publicPaths : List String)
    (reference : SymbolReference) (t : List (String × SymbolDeclaration))
    (d e : SymbolDeclaration)
    (hkind : reference.import_type = .Simple)
    (hex : listLookup t (simpleInsertKey reference) = some e) :
    listLookup (applyContribution publicPaths reference t d)
        (simpleInsertKey reference) =
      some ⟨e.symbol, dedupKeepFirst (e.modules ++ d.modules)⟩ ∧
    (∀ x, x ∈ dedupKeepFirst (e.modules ++ d.modules) ↔
      x ∈ e.modules ∨ x ∈ d.modules) ∧
    (∀ k, k ≠ simpleInsertKey reference →
      listLookup (applyContribution publicPaths reference t d) k =
        listLookup t k) := by
  have happ : applyContribution publicPaths reference t d =
      tableInsert t (simpleInsertKey reference)
        ⟨e.symbol, dedupKeepFirst (e.modules ++ d.modules)⟩ := by
    unfold applyContribution
    rw [hkind]
    simp only [hex]
  refine ⟨?_, ?_, ?_⟩
  · rw [happ]
    exact listLookup_tableInsert_self ..
  · intro x
    rw [dedupKeepFirst_mem, List.mem_append]
  · intro k hk
    rw [happ]
    exact listLookup_tableInsert_other _ _ _ _ hk

/-- Witness for C3 (amended): the root module re-exports `inner::test`,
whose key coincides with the seeded declaration's key, so the modules lists
are unioned. -/
theorem c3_simple_union_merge_witness :
    listLookup [("inner::test", (⟨⟨"test", "s"⟩, ["inner"]⟩ : SymbolDeclaration))]
        (simpleInsertKey ⟨"inner::test", "", .Simple⟩) =
      some ⟨⟨"test", "s"⟩, ["inner"]⟩ ∧
    listLookup
        (applyContribution [""] ⟨"inner::test", "", .Simple⟩
          [("inner::test", ⟨⟨"test", "s"⟩, ["inner"]⟩)]
          ⟨⟨"test", "s"⟩, ["inner", ""]⟩)
        (simpleInsertKey ⟨"inner::test", "", .Simple⟩) =
      some ⟨⟨"test", "s"⟩, dedupKeepFirst (["inner"] ++ ["inner", ""])⟩ := by
  refine ⟨by decide, ?_⟩
  exact (c3_simple_union_merge [""] ⟨"inner::test", "", .Simple⟩
    [("inner::test", ⟨⟨"test", "s"⟩, ["inner"]⟩)] ⟨⟨"test", "s"⟩, ["inner", ""]⟩
    ⟨⟨"test", "s"⟩, ["inner"]⟩ rfl (by decide)).1

/-!
## C4: wildcard fanout
-/

lemma filterSeeds_eq_nil (h M : String) (hMh : M ≠ h) :
    ∀ (ss : List Symbol),
      List.filter (keepPublic [h])
        (List.map Prod.snd (List.map (restrictModules [h])
          (ss.map (fun s =>
            (getSymbolPathFromModulePath s.name M,
             (⟨s, [M]⟩ : SymbolDeclaration)))))) = [] := by
  intro ss
  induction ss with
  | nil => rfl
  | cons s rest ih =>
      simp [keepPublic, restrictModules, hMh, List.map_map] at ih ⊢
      try exact ih

lemma filterWild_eq (h M : String) (hMh : M ≠ h) :
    ∀ (ss : List Symbol),
      List.filter (keepPublic [h])
        (List.map Prod.snd (List.map (restrictModules [h])
          (ss.map (fun s =>
            (getSymbolPathFromModulePath s.name h,
             (⟨s, [M, h]⟩ : SymbolDeclaration)))))) =
        ss.map (fun s => (⟨s, [h]⟩ : SymbolDeclaration)) := by
  intro ss
  induction ss with
  | nil => rfl
  | cons s rest ih =>
      simp [keepPublic, restrictModules, hMh, List.map_map] at ih ⊢
      try exact ih

/-- C4: a public module `H` whose only item is `pub use M::*;`, where the
private module `M` (qualified name `qualify(src, H)`) declares exactly the
symbols `syms` (with distinct, collision-free names), resolves to exactly
those symbols, each with its original rendered source unchanged and visible
exactly at `H`. -/
theorem c4_wildcard_fanout (h src : String) (syms : List Symbol)
    (hnorm : normaliseReference src h = .ok src)
    (hhM : h ≠ getSymbolPathFromModulePath src h)
    (hnames : List.Pairwise (fun s1 s2 : Symbol => s1.name ≠ s2.name) syms)
    (hkeys : ∀ s ∈ syms, ∀ t ∈ syms,
      getSymbolPathFromModulePath s.name h ≠
        getSymbolPathFromModulePath t.name (getSymbolPathFromModulePath src h))
    (hne : syms ≠ []) :
    resolveSymbols [⟨h, true, none, [.symbolReexport src .Wildcard]⟩,
        ⟨getSymbolPathFromModulePath src h, false, none, syms.map .symbol⟩] =
      .ok ⟨syms.map (fun s => ⟨s, [h]⟩), []⟩ := by
  set M := getSymbolPathFromModulePath src h with hM
  set mods : List Module := [⟨h, true, none, [.symbolReexport src .Wildcard]⟩,
    ⟨M, false, none, syms.map .symbol⟩] with hmods
  set r : SymbolReference := ⟨src, h, .Wildcard⟩ with hr
  have L3 : ∀ (ss : List Symbol) (t : List (String × SymbolDeclaration))
      (refs : List SymbolReference),
      collectFromItems M (ss.map .symbol) (t, refs) = .ok
        (ss.foldl (fun tt s =>
          tableInsert tt (getSymbolPathFromModulePath s.name M) ⟨s, [M]⟩) t, refs) := by
    intro ss
    induction ss with
    | nil => intro t refs; rfl
    | cons s rest ih => intro t refs; simp [collectFromItems, ih]
  have hpwM : List.Pairwise (fun s1 s2 : Symbol =>
      getSymbolPathFromModulePath s1.name M ≠ getSymbolPathFromModulePath s2.name M)
      syms :=
    hnames.imp (fun hab heq => hab (getSymbolPathFromModulePath_inj M _ _ heq))
  set seedTable : List (String × SymbolDeclaration) :=
    syms.map (fun s => (getSymbolPathFromModulePath s.name M, ⟨s, [M]⟩)) with hseed
  have hseedfold : syms.foldl (fun tt s =>
      tableInsert tt (getSymbolPathFromModulePath s.name M) ⟨s, [M]⟩) [] = seedTable := by
    rw [hseed]
    have := foldl_tableInsert_fresh
      (fun s : Symbol => getSymbolPathFromModulePath s.name M)
      (fun s : Symbol => (⟨s, [M]⟩ : SymbolDeclaration)) syms []
      (fun d _ => rfl) hpwM
    simpa using this
  have hcollect : collectSymbolsAndReferences mods = .ok (seedTable, [r]) := by
    show collectGo mods ([], []) = _
    rw [hmods]
    simp only [collectGo, collectFromItems, hnorm, L3, hseedfold, List.nil_append]
  have hpub : publicModulePaths mods = [h] := rfl
  set contributions : List SymbolDeclaration :=
    syms.map (fun s => ⟨s, [M, h]⟩) with hcon
  have L5 : ∀ (F : SymbolReference → Except ExtractionError (List SymbolDeclaration))
      (ss : List Symbol),
      getModuleDeclarationsWith F M (ss.map .symbol) =
        .ok (ss.map (fun s => ⟨s, [M]⟩)) := by
    intro F ss
    induction ss with
    | nil => rfl
    | cons s rest ih => simp [getModuleDeclarationsWith, ih]
  have hres : resolveSymbolReference mods [r] (resolutionFuel mods) r seedTable [] =
      .ok contributions := by
    have e1 : resolutionFuel mods =
        (mods.foldl (fun acc m => acc + m.symbols.length) 0 + 1) + 1 := rfl
    rw [e1, hmods, hr]
    simp only [resolveSymbolReference, List.find?_cons]
    rw [show (decide (h = getSymbolPathFromModulePath src h)) = false from by simp [hhM]]
    simp [L5, List.map_map, Function.comp, hcon]
  have hie : contributions.isEmpty = false := by
    rw [hcon]
    cases syms with
    | nil => exact absurd rfl hne
    | cons a b => rfl
  set wild : List (String × SymbolDeclaration) :=
    contributions.map (fun d => (getSymbolPathFromModulePath d.symbol.name h, d))
    with hwild
  have hfr : ∀ d ∈ contributions, listLookup seedTable
      (getSymbolPathFromModulePath d.symbol.name h) = none := by
    intro d hd
    rw [hcon] at hd
    obtain ⟨s, hsmem, rfl⟩ := List.mem_map.mp hd
    rw [hseed]
    exact listLookup_map_none _ _ _ syms
      (fun x hx => Ne.symm (hkeys s hsmem x hx))
  have hpwW : List.Pairwise (fun d1 d2 : SymbolDeclaration =>
      getSymbolPathFromModulePath d1.symbol.name h ≠
        getSymbolPathFromModulePath d2.symbol.name h) contributions := by
    rw [hcon, List.pairwise_map]
    exact hnames.imp (fun hab heq => hab (getSymbolPathFromModulePath_inj h _ _ heq))
  have hfold : contributions.foldl (applyContribution [h] r) seedTable =
      seedTable ++ wild := by
    have hfun : applyContribution [h] r = fun tt d =>
        tableInsert tt (getSymbolPathFromModulePath d.symbol.name h) d := rfl
    rw [hfun]
    exact foldl_tableInsert_fresh _ (fun d => d) contributions seedTable hfr hpwW
  have hloop : resolveReferences (resolutionFuel mods) seedTable [r] mods [h] =
      .ok (seedTable ++ wild) := by
    unfold resolveReferences
    simp only [resolveReferencesGo, hres, hie, Bool.false_eq_true, if_false,
      ite_false, hfold]
  have htable : resolutionTable mods =
      .ok ((seedTable ++ wild).map (restrictModules [h])) := by
    unfold resolutionTable
    rw [hcollect]
    simp only [hpub, hloop]
  have hwild2 : wild = syms.map (fun s =>
      (getSymbolPathFromModulePath s.name h, (⟨s, [M, h]⟩ : SymbolDeclaration))) := by
    rw [hwild, hcon, List.map_map]
    rfl
  have L6a : List.filter (keepPublic [h])
      (List.map Prod.snd (List.map (restrictModules [h]) seedTable)) = [] := by
    rw [hseed]
    exact filterSeeds_eq_nil h M (Ne.symm hhM) syms
  have L6b : List.filter (keepPublic [h])
      (List.map Prod.snd (List.map (restrictModules [h]) wild)) =
      syms.map (fun s => (⟨s, [h]⟩ : SymbolDeclaration)) := by
    rw [hwild2]
    exact filterWild_eq h M (Ne.symm hhM) syms
  have hout : resolvePublicSymbols mods = .ok (syms.map (fun s => ⟨s, [h]⟩)) := by
    unfold resolvePublicSymbols
    rw [htable, hpub]
    simp only [List.map_append, List.filter_append, L6a, L6b, List.nil_append]
  show resolveSymbols mods = _
  unfold resolveSymbols
  rw [hout]
  rfl

/-- Witness for C4: a public module `host` wildcard-importing the private
module `host::inner` that declares `One` and `Two`. -/
theorem c4_wildcard_fanout_witness :
    resolveSymbols [⟨"host", true, none, [.symbolReexport "inner" .Wildcard]⟩,
        ⟨getSymbolPathFromModulePath "inner" "host", false, none,
          ([⟨"One", "pub struct One;"⟩, ⟨"Two", "pub struct Two;"⟩].map
            ModuleItem.symbol)⟩] =
      .ok ⟨[⟨"One", "pub struct One;"⟩, ⟨"Two", "pub struct Two;"⟩].map
        (fun s => ⟨s, ["host"]⟩), []⟩ := by
  exact c4_wildcard_fanout "host" "inner"
    [⟨"One", "pub struct One;"⟩, ⟨"Two", "pub struct Two;"⟩]
    rfl (by decide) (by decide) (by decide) (by decide)

/-!
## C9: cycle safety of module-directory collection

The source has no visited path-set: a flat sibling file is parsed once per
`mod` declaration without recursing into its own `mod` items, and a nested
directory scope's path is one component longer than its parent's, so the
recursion depth is bounded by the longest path in the file system. The fuel
of the embedding exceeds that length, hence the zero-fuel branch (`none`)
is unreachable: that is the termination theorem. The mechanism stated in
the claim — revisits prevented by path-set membership — does not exist, and
a file can be visited twice (duplicate `mod` declarations), which is the
counterexample.
-/

lemma le_foldl_max : ∀ (l : List (FsPath × RustFile)) (i : Nat),
    i ≤ l.foldl (fun acc e => max acc e.1.length) i ∧
    ∀ kv ∈ l, kv.1.length ≤ l.foldl (fun acc e => max acc e.1.length) i := by
  intro l
  induction l with
  | nil => intro i; exact ⟨le_refl i, by simp⟩
  | cons kv rest ih =>
      intro i
      obtain ⟨h1, h2⟩ := ih (max i kv.1.length)
      simp only [List.foldl_cons]
      refine ⟨le_trans (le_max_left ..) h1, ?_⟩
      intro kv2 hkv2
      rcases List.mem_cons.mp hkv2 with h | h
      · subst h
        exact le_trans (le_max_right ..) h1
      · exact h2 kv2 h

lemma listLookup_mem {κ α : Type} [DecidableEq κ] :
    ∀ (l : List (κ × α)) (k : κ) (v : α), listLookup l k = some v → (k, v) ∈ l := by
  intro l
  induction l with
  | nil => intro k v h; cases h
  | cons kv rest ih =>
      obtain ⟨k1, v1⟩ := kv
      intro k v h
      simp only [listLookup] at h
      by_cases hk : k1 = k
      · rw [if_pos hk] at h
        injection h with h2
        subst hk
        subst h2
        exact List.mem_cons_self ..
      · rw [if_neg hk] at h
        exact List.mem_cons_of_mem _ (ih k v h)

lemma fsExists_le_maxPathLen (fs : Fs) (p : FsPath) (h : fsExists fs p = true) :
    p.length ≤ maxPathLen fs := by
  unfold fsExists fsRead at h
  cases hl : listLookup fs.files p with
  | none => rw [hl] at h; cases h
  | some f =>
      have hmem := listLookup_mem fs.files p f hl
      exact (le_foldl_max fs.files 0).2 (p, f) hmem

lemma categorise_directory_facts (fs : Fs) (cur dir : FsPath) (name : String)
    (imp : LocalModuleImport) (d : FsPath)
    (h : categoriseModuleImport fs cur dir name = .ok imp)
    (hd : imp.module_type = .directory d) :
    d.length = dir.length + 1 ∧ dir.length + 1 ≤ maxPathLen fs := by
  unfold categoriseModuleImport at h
  by_cases h1 : fsExists fs (dir ++ [name ++ ".rs"]) = true
  · have hlen1 : dir.length + 1 ≤ maxPathLen fs := by
      have := fsExists_le_maxPathLen fs _ h1
      simpa using this
    rw [if_pos h1] at h
    by_cases h2 : fsIsDir fs (dir ++ [name]) = true
    · rw [if_pos h2] at h
      injection h with h3
      rw [← h3] at hd
      simp only at hd
      injection hd with h4
      rw [← h4]
      exact ⟨by simp, hlen1⟩
    · rw [if_neg h2] at h
      injection h with h3
      rw [← h3] at hd
      cases hd
  · rw [if_neg h1] at h
    by_cases h2 : fsExists fs (dir ++ [name, "mod.rs"]) = true
    · have hlen2 : dir.length + 2 ≤ maxPathLen fs := by
        have := fsExists_le_maxPathLen fs _ h2
        simpa using this
      rw [if_pos h2] at h
      injection h with h3
      rw [← h3] at hd
      simp only at hd
      injection hd with h4
      rw [← h4]
      exact ⟨by simp, by omega⟩
    · rw [if_neg h2] at h
      cases h

lemma collectItems_isSome (fs : Fs)
    (recurseF : FsPath → FsPath → Bool → String →
      Option (Except ExtractionError (List ModuleDirectory)))
    (entry dir : FsPath) (ns : String)
    (hrec : ∀ e d p n, d.length = dir.length + 1 →
      dir.length + 1 ≤ maxPathLen fs → (recurseF e d p n).isSome) :
    ∀ (items : List RustSymbol) internal dirs,
      (collectItemsWith recurseF fs entry dir ns items internal dirs).isSome := by
  intro items
  induction items with
  | nil => intro internal dirs; rfl
  | cons item rest ih =>
      intro internal dirs
      cases item with
      | symbol s => exact ih internal dirs
      | reexport sp it => exact ih internal dirs
      | moduleBlock n p c dcm => exact ih internal dirs
      | moduleImport name isReexported =>
          simp only [collectItemsWith]
          cases hc : categoriseModuleImport fs entry dir name with
          | error e => rfl
          | ok imp =>
              simp only []
              cases hmt : imp.module_type with
              | file =>
                  cases fsRead fs imp.path with
                  | none => rfl
                  | some file => exact ih _ dirs
              | directory d =>
                  obtain ⟨hlen, hmax⟩ :=
                    categorise_directory_facts fs entry dir name imp d hc hmt
                  have hx := hrec imp.path d isReexported
                    (namespacedName name ns) hlen hmax
                  simp only []
                  cases hv : recurseF imp.path d isReexported (namespacedName name ns) with
                  | none => rw [hv] at hx; cases hx
                  | some res =>
                      cases res with
                      | error e => rfl
                      | ok newDirs => exact ih internal (dirs ++ newDirs)

lemma recursivelyCollect_isSome (fs : Fs) :
    ∀ (fuel : Nat) (entry dir : FsPath) (pub : Bool) (ns : String),
      maxPathLen fs ≤ fuel + dir.length →
      (recursivelyCollectModuleDirectories fs fuel entry dir pub ns).isSome := by
  intro fuel
  induction fuel with
  | zero =>
      intro entry dir pub ns hle
      unfold recursivelyCollectModuleDirectories collectLevel
      cases fsRead fs entry with
      | none => rfl
      | some file =>
          have hitems := collectItems_isSome fs (fun _ _ _ _ => none) entry dir ns
            (fun e d p n hdlen hmax => by omega) file.symbols [] []
          simp only []
          cases hv : collectItemsWith (fun _ _ _ _ => none) fs entry dir ns
              file.symbols [] [] with
          | none => rw [hv] at hitems; cases hitems
          | some res => cases res with
              | error e => rfl
              | ok pr => obtain ⟨a, b⟩ := pr; rfl
  | succ fuel ih =>
      intro entry dir pub ns hle
      unfold recursivelyCollectModuleDirectories collectLevel
      cases fsRead fs entry with
      | none => rfl
      | some file =>
          have hitems := collectItems_isSome fs
            (recursivelyCollectModuleDirectories fs fuel) entry dir ns
            (fun e d p n hdlen hmax => ih e d p n (by omega)) file.symbols [] []
          simp only []
          cases hv : collectItemsWith (recursivelyCollectModuleDirectories fs fuel)
              fs entry dir ns file.symbols [] [] with
          | none => rw [hv] at hitems; cases hitems
          | some res => cases res with
              | error e => rfl
              | ok pr => obtain ⟨a, b⟩ := pr; rfl

/-- Counterexample to the stated mechanism of C9: the collector keeps no
set of already-visited paths, so a file seen earlier in the traversal is
re-entered on a repeated reference rather than ignored. Under `dupModFs`
the duplicated `mod a;` makes the recursion process `src/a/mod.rs` twice,
and the output lists the directory `a` twice. -/
theorem c9_revisit_counterexample :
    Option.map (Except.map (List.map ModuleDirectory.name))
      (collectModuleDirectories dupModFs ["src", "lib.rs"]) =
    some (.ok ["", "a", "a"]) := rfl

/-- C9 (amended): module-directory collection always terminates and, on the
cyclic graph in which `module_a.rs` and `module_b.rs` declare each other
with `mod m;`, returns a non-error result. Termination is not by path-set
membership (the code keeps no visited set; see `c9_revisit_counterexample`):
a flat `mod m;` file is read into the internal-files map without recursing
into its items, so cycles among flat files never cause re-entry, and
recursion only enters a nested directory scope, whose path is strictly
longer, so the fuel `maxPathLen fs + 1` is never exhausted and the result
is always `some`. On `cyclicFs`, started at `module_a.rs`, the collection
returns Ok with a single root directory whose only internal file is
`module_b`. -/
theorem c9_collection_terminates :
    (∀ (fs : Fs) (entry : FsPath),
      (collectModuleDirectories fs entry).isSome) ∧
    Option.map (Except.map (List.map
        (fun d => (d.name, d.internal_files.map Prod.fst))))
      (collectModuleDirectories cyclicFs ["src", "module_a.rs"]) =
    some (.ok [("", ["module_b"])]) := by
  refine ⟨fun fs entry => ?_, rfl⟩
  exact recursivelyCollect_isSome fs (maxPathLen fs + 1) entry entry.dropLast
    true "" (by omega)

/-!
## C2: determinism up to the hash-map read-out

The claim as frozen asks for byte-identical output across runs. The only
run-to-run freedom in the pipeline is the order in which the final
declaration table's values are read out of the hash map
(`resolvePublicSymbolsRead` makes it explicit); two read orders that
enumerate the same keys can put the symbols of one namespace in different
orders, so byte-identity fails (`c2_readout_counterexample`). What does
hold is that the namespace list's names — count and order included — are
identical for any two read-outs of the same table
(`c2_namespace_names_deterministic`): the grouping keys are independent of
the symbol order and the final sort is antisymmetric on names.
-/

lemma listLookup_none_iff {α : Type} : ∀ (t : List (String × α)) (k : String),
    listLookup t k = none ↔ k ∉ t.map Prod.fst := by
  intro t
  induction t with
  | nil => intro k; simp [listLookup]
  | cons kv rest ih =>
      intro k
      obtain ⟨k1, v1⟩ := kv
      by_cases hk : k1 = k
      · subst hk; simp [listLookup]
      · simp [listLookup, hk, ih, Ne.symm hk]

lemma listLookup_some_mem_keys {α : Type} (t : List (String × α)) (k : String)
    (v : α) (h : listLookup t k = some v) : k ∈ t.map Prod.fst := by
  have hm := listLookup_mem t k v h
  exact List.mem_map_of_mem Prod.fst hm

lemma tableInsert_keys_of_mem {α : Type} : ∀ (t : List (String × α)) (k : String)
    (v : α), k ∈ t.map Prod.fst →
    (tableInsert t k v).map Prod.fst = t.map Prod.fst := by
  intro t
  induction t with
  | nil => intro k v h; simp at h
  | cons kv rest ih =>
      intro k v h
      obtain ⟨k1, v1⟩ := kv
      by_cases hk : k1 = k
      · simp [tableInsert, hk]
      · simp only [List.map_cons, List.mem_cons] at h
        rcases h with h | h
        · exact absurd h.symm hk
        · simp [tableInsert, hk, ih k v h]

lemma mem_tableInsert {α : Type} : ∀ (t : List (String × α)) (k : String) (v : α)
    (kv : String × α), kv ∈ tableInsert t k v → kv ∈ t ∨ kv = (k, v) := by
  intro t k v
  induction t with
  | nil =>
      intro kv h
      simp only [tableInsert, List.mem_singleton] at h
      exact Or.inr h
  | cons kv2 rest ih =>
      intro kv h
      obtain ⟨k2, v2⟩ := kv2
      by_cases hk : k2 = k
      · rw [show tableInsert ((k2, v2) :: rest) k v = (k2, v) :: rest by
          simp [tableInsert, hk]] at h
        rcases List.mem_cons.mp h with h2 | h2
        · exact Or.inr (by rw [h2, hk])
        · exact Or.inl (List.mem_cons_of_mem _ h2)
      · rw [show tableInsert ((k2, v2) :: rest) k v = (k2, v2) :: tableInsert rest k v by
          simp [tableInsert, hk]] at h
        rcases List.mem_cons.mp h with h2 | h2
        · exact Or.inl (h2 ▸ List.mem_cons_self ..)
        · rcases ih kv h2 with h3 | h3
          · exact Or.inl (List.mem_cons_of_mem _ h3)
          · exact Or.inr h3

/-- Every entry of the namespace table carries its own key as its name. -/
lemma push_name_inv (docs : List (String × String)) (crate : String)
    (t : List (String × Namespace)) (m : String) (sym : Symbol)
    (h : ∀ kv ∈ t, Namespace.name kv.2 = kv.1) :
    ∀ kv ∈ pushSymbolToNamespace docs crate t m sym, Namespace.name kv.2 = kv.1 := by
  intro kv hkv
  unfold pushSymbolToNamespace at hkv
  simp only [] at hkv
  split at hkv
  · rename_i ns hl
    rcases mem_tableInsert t _ _ kv hkv with h2 | h2
    · exact h kv h2
    · have hns := h (namespaceName crate m, ns) (listLookup_mem t _ ns hl)
      rw [h2]
      exact hns
  · rename_i hl
    rcases List.mem_append.mp hkv with h2 | h2
    · exact h kv h2
    · simp only [List.mem_singleton] at h2
      rw [h2]

lemma push_keys_iff (docs : List (String × String)) (crate : String)
    (t : List (String × Namespace)) (m : String) (sym : Symbol) (k : String) :
    k ∈ (pushSymbolToNamespace docs crate t m sym).map Prod.fst ↔
      k ∈ t.map Prod.fst ∨ k = namespaceName crate m := by
  unfold pushSymbolToNamespace
  simp only []
  split
  · rename_i ns hl
    rw [tableInsert_keys_of_mem t _ _ (listLookup_some_mem_keys t _ ns hl)]
    constructor
    · exact Or.inl
    · rintro (h | h)
      · exact h
      · exact h ▸ listLookup_some_mem_keys t _ ns hl
  · rename_i hl
    simp

lemma push_keys_nodup (docs : List (String × String)) (crate : String)
    (t : List (String × Namespace)) (m : String) (sym : Symbol)
    (h : (t.map Prod.fst).Nodup) :
    ((pushSymbolToNamespace docs crate t m sym).map Prod.fst).Nodup := by
  unfold pushSymbolToNamespace
  simp only []
  split
  · rename_i ns hl
    rw [tableInsert_keys_of_mem t _ _ (listLookup_some_mem_keys t _ ns hl)]
    exact h
  · rename_i hl
    have hk : namespaceName crate m ∉ t.map Prod.fst :=
      (listLookup_none_iff t _).mp hl
    simp [List.nodup_append, h, hk]

lemma innerFold_name_inv (docs : List (String × String)) (crate : String)
    (sym : Symbol) : ∀ (ms : List String) (t : List (String × Namespace)),
    (∀ kv ∈ t, Namespace.name kv.2 = kv.1) →
    ∀ kv ∈ ms.foldl (fun t2 m => pushSymbolToNamespace docs crate t2 m sym) t,
      Namespace.name kv.2 = kv.1 := by
  intro ms
  induction ms with
  | nil => intro t h; exact h
  | cons m rest ih =>
      intro t h
      exact ih _ (push_name_inv docs crate t m sym h)

lemma innerFold_keys_iff (docs : List (String × String)) (crate : String)
    (sym : Symbol) : ∀ (ms : List String) (t : List (String × Namespace)) (k : String),
    (k ∈ (ms.foldl (fun t2 m => pushSymbolToNamespace docs crate t2 m sym) t).map
        Prod.fst ↔
      k ∈ t.map Prod.fst ∨ ∃ m ∈ ms, k = namespaceName crate m) := by
  intro ms
  induction ms with
  | nil => intro t k; simp
  | cons m rest ih =>
      intro t k
      simp only [List.foldl_cons]
      rw [ih, push_keys_iff]
      constructor
      · rintro ((h | h) | h)
        · exact Or.inl h
        · exact Or.inr ⟨m, List.mem_cons_self .., h⟩
        · obtain ⟨m2, hm2, he⟩ := h
          exact Or.inr ⟨m2, List.mem_cons_of_mem _ hm2, he⟩
      · rintro (h | ⟨m2, hm2, he⟩)
        · exact Or.inl (Or.inl h)
        · rcases List.mem_cons.mp hm2 with h2 | h2
          · exact Or.inl (Or.inr (h2 ▸ he))
          · exact Or.inr ⟨m2, h2, he⟩

lemma innerFold_nodup (docs : List (String × String)) (crate : String)
    (sym : Symbol) : ∀ (ms : List String) (t : List (String × Namespace)),
    (t.map Prod.fst).Nodup →
    ((ms.foldl (fun t2 m => pushSymbolToNamespace docs crate t2 m sym) t).map
      Prod.fst).Nodup := by
  intro ms
  induction ms with
  | nil => intro t h; exact h
  | cons m rest ih =>
      intro t h
      exact ih _ (push_keys_nodup docs crate t m sym h)

lemma buildTable_name_inv (docs : List (String × String)) (crate : String) :
    ∀ (syms : List SymbolDeclaration) (t : List (String × Namespace)),
    (∀ kv ∈ t, Namespace.name kv.2 = kv.1) →
    ∀ kv ∈ syms.foldl
        (fun t rs => rs.modules.foldl
          (fun t2 m => pushSymbolToNamespace docs crate t2 m rs.symbol) t) t,
      Namespace.name kv.2 = kv.1 := by
  intro syms
  induction syms with
  | nil => intro t h; exact h
  | cons s rest ih =>
      intro t h
      exact ih _ (innerFold_name_inv docs crate s.symbol s.modules t h)

/-- Which namespace keys exist depends only on which (symbol, module path)
pairs occur, never on their order. -/
lemma buildTable_keys_iff (docs : List (String × String)) (crate : String) :
    ∀ (syms : List SymbolDeclaration) (t : List (String × Namespace)) (k : String),
    (k ∈ (syms.foldl
        (fun t rs => rs.modules.foldl
          (fun t2 m => pushSymbolToNamespace docs crate t2 m rs.symbol) t) t).map
        Prod.fst ↔
      k ∈ t.map Prod.fst ∨ ∃ s ∈ syms, ∃ m ∈ s.modules, k = namespaceName crate m) := by
  intro syms
  induction syms with
  | nil => intro t k; simp
  | cons s rest ih =>
      intro t k
      simp only [List.foldl_cons]
      rw [ih, innerFold_keys_iff]
      constructor
      · rintro ((h | h) | h)
        · exact Or.inl h
        · obtain ⟨m, hm, he⟩ := h
          exact Or.inr ⟨s, List.mem_cons_self .., m, hm, he⟩
        · obtain ⟨s2, hs2, hrest⟩ := h
          exact Or.inr ⟨s2, List.mem_cons_of_mem _ hs2, hrest⟩
      · rintro (h | ⟨s2, hs2, m, hm, he⟩)
        · exact Or.inl (Or.inl h)
        · rcases List.mem_cons.mp hs2 with h2 | h2
          · exact Or.inl (Or.inr ⟨m, h2 ▸ hm, he⟩)
          · exact Or.inr ⟨s2, h2, m, hm, he⟩

lemma buildTable_nodup (docs : List (String × String)) (crate : String) :
    ∀ (syms : List SymbolDeclaration) (t : List (String × Namespace)),
    (t.map Prod.fst).Nodup →
    ((syms.foldl
        (fun t rs => rs.modules.foldl
          (fun t2 m => pushSymbolToNamespace docs crate t2 m rs.symbol) t) t).map
      Prod.fst).Nodup := by
  intro syms
  induction syms with
  | nil => intro t h; exact h
  | cons s rest ih =>
      intro t h
      exact ih _ (innerFold_nodup docs crate s.symbol s.modules t h)

lemma nameLE_antisymm (x y : String) (h1 : nameLE x y = true)
    (h2 : nameLE y x = true) : x = y := by
  unfold nameLE at h1 h2
  by_cases e : countSS x.data = countSS y.data
  · rw [if_pos e] at h1
    rw [if_pos e.symm] at h2
    exact le_antisymm (of_decide_eq_true h1) (of_decide_eq_true h2)
  · rw [if_neg e] at h1
    rw [if_neg (fun h => e h.symm)] at h2
    have l1 : countSS x.data < countSS y.data := of_decide_eq_true h1
    have l2 : countSS y.data < countSS x.data := of_decide_eq_true h2
    omega

/-- Two symbol resolutions that hold the same resolved symbols up to order
yield the same namespace-name list, order included. -/
lemma constructNamespaces_names_eq (r1 r2 : SymbolResolution) (crate : String)
    (hs : r1.symbols.Perm r2.symbols) :
    (constructNamespaces r1 crate).map Namespace.name =
      (constructNamespaces r2 crate).map Namespace.name := by
  unfold constructNamespaces
  simp only []
  set c := sanitiseCrateName crate with hc
  have nameinv := fun (r : SymbolResolution) =>
    buildTable_name_inv r.doc_comments c r.symbols [] (by intro kv h; cases h)
  have nodup := fun (r : SymbolResolution) =>
    buildTable_nodup r.doc_comments c r.symbols [] List.nodup_nil
  have hperm : ∀ (r : SymbolResolution),
      (((buildNamespaceTable r.doc_comments c r.symbols).map
          Prod.snd).mergeSort namespaceLE).map Namespace.name |>.Perm
        ((buildNamespaceTable r.doc_comments c r.symbols).map Prod.fst) := by
    intro r
    have h1 := List.mergeSort_perm
      ((buildNamespaceTable r.doc_comments c r.symbols).map Prod.snd) namespaceLE
    have h2 := h1.map Namespace.name
    rw [List.map_map] at h2
    have h3 : (buildNamespaceTable r.doc_comments c r.symbols).map
        (Namespace.name ∘ Prod.snd) =
        (buildNamespaceTable r.doc_comments c r.symbols).map Prod.fst := by
      apply List.map_congr_left
      intro kv hkv
      exact nameinv r kv hkv
    rw [h3] at h2
    exact h2
  have hkeys : ((buildNamespaceTable r1.doc_comments c r1.symbols).map
      Prod.fst).Perm
      ((buildNamespaceTable r2.doc_comments c r2.symbols).map Prod.fst) := by
    unfold buildNamespaceTable
    rw [List.perm_ext_iff_of_nodup (nodup r1) (nodup r2)]
    intro k
    rw [buildTable_keys_iff r1.doc_comments c r1.symbols [] k,
      buildTable_keys_iff r2.doc_comments c r2.symbols [] k]
    simp only [List.map_nil, List.not_mem_nil, false_or]
    constructor
    · rintro ⟨s, hsm, rest⟩; exact ⟨s, hs.mem_iff.mp hsm, rest⟩
    · rintro ⟨s, hsm, rest⟩; exact ⟨s, hs.mem_iff.mpr hsm, rest⟩
  have hperm12 := ((hperm r1).trans hkeys).trans (hperm r2).symm
  have hsorted : ∀ (r : SymbolResolution),
      List.Pairwise (fun x y : String => nameLE x y = true)
        ((((buildNamespaceTable r.doc_comments c r.symbols).map
          Prod.snd).mergeSort namespaceLE).map Namespace.name) := by
    intro r
    refine List.Pairwise.map Namespace.name ?_
      (@List.sorted_mergeSort Namespace namespaceLE
        (fun a b c h1 h2 => namespaceLE_trans a b c h1 h2)
        (fun a b => namespaceLE_total a b) _)
    intro a b hab
    exact hab
  exact @List.eq_of_perm_of_sorted String (fun x y => nameLE x y = true)
    ⟨fun a b h1 h2 => nameLE_antisymm a b h1 h2⟩ _ _ hperm12 (hsorted r1) (hsorted r2)

/-- Counterexample to C2 as stated: on `c2Mods` the final declaration table
holds the keys `a` and `b`; the read-out orders `[b, a]` and `[a, b]`
enumerate the same keys yet produce different outputs — the two symbols of
the root namespace appear in opposite orders — so two runs of the pipeline
on identical inputs need not be byte-identical. -/
theorem c2_readout_counterexample :
    List.Perm ["b", "a"] ["a", "b"] ∧
    buildApiFromModulesRead c2Mods "demo" ["b", "a"] ≠
      buildApiFromModulesRead c2Mods "demo" ["a", "b"] := by
  constructor
  · decide
  · have e1 : buildApiFromModulesRead c2Mods "demo" ["b", "a"] =
        .ok ([(⟨"demo", [⟨"b", "pub fn b() {}"⟩, ⟨"a", "pub fn a() {}"⟩], none⟩ :
          Namespace)].mergeSort namespaceLE) := rfl
    have e2 : buildApiFromModulesRead c2Mods "demo" ["a", "b"] =
        .ok ([(⟨"demo", [⟨"a", "pub fn a() {}"⟩, ⟨"b", "pub fn b() {}"⟩], none⟩ :
          Namespace)].mergeSort namespaceLE) := rfl
    rw [e1, e2, List.mergeSort_singleton, List.mergeSort_singleton]
    intro h
    injection h with h2
    exact absurd h2 (by decide)

/-- C2 (amended): for a fixed input, any two read-out orders of the final
declaration table that enumerate the same keys (any two runs of the
program) produce namespace lists with identical names in identical order;
the run-to-run freedom is confined to the symbol order inside a
namespace. -/
theorem c2_namespace_names_deterministic (mods : List Module) (crate : String)
    (ord1 ord2 : List String) (h : ord1.Perm ord2) :
    Except.map (List.map Namespace.name) (buildApiFromModulesRead mods crate ord1) =
      Except.map (List.map Namespace.name) (buildApiFromModulesRead mods crate ord2) := by
  unfold buildApiFromModulesRead resolvePublicSymbolsRead
  cases ht : resolutionTable mods with
  | error e => rfl
  | ok table =>
      simp only [Except.map]
      exact congrArg Except.ok (constructNamespaces_names_eq
        ⟨(ord1.filterMap (listLookup table)).filter
            (keepPublic (publicModulePaths mods)),
          getDocCommentsByModule mods⟩
        ⟨(ord2.filterMap (listLookup table)).filter
            (keepPublic (publicModulePaths mods)),
          getDocCommentsByModule mods⟩
        crate ((h.filterMap _).filter _))

theorem c2_namespace_names_deterministic_witness :
    Except.map (List.map Namespace.name)
        (buildApiFromModulesRead c2Mods "demo" ["b", "a"]) =
      Except.map (List.map Namespace.name)
        (buildApiFromModulesRead c2Mods "demo" ["a", "b"]) :=
  c2_namespace_names_deterministic c2Mods "demo" ["b", "a"] ["a", "b"] (by decide)

end Daip
